import Mathlib

/-!
# gh-shortlog: a shallow embedding of `main.go`

Go strings are modelled by Lean `String`s.  External processes (the fuzzy
selector, the file system, the environment) are inputs of the embedded
functions: `launchFzf` receives the captured standard output of the selector,
`parseArgs` receives the file-system oracle and the environment.
-/

namespace GhShortlog

/-! ## Library functions used by the source -/

/-- Go `strings.Split(s, sep)` for a one-character separator: the pieces of `s`
between successive occurrences of `sep` (always at least one piece).  The
separators of the source are ASCII characters, for which splitting by
character and splitting by byte agree. -/
def stringsSplit (s : String) (sep : Char) : List String :=
  (s.data.splitOn sep).map String.mk

/-- Go `strings.Join(elems, sep)` for a one-character separator. -/
def stringsJoin (elems : List String) (sep : Char) : String :=
  String.mk ([sep].intercalate (elems.map String.data))

/-- Go `strings.HasPrefix(s, prefix)`. -/
def hasPrefix (s pre : String) : Bool :=
  pre.data.isPrefixOf s.data

/-! ## Package `path/filepath` on Unix

The functions below follow the Go standard library for the Unix separator
`/` (no volume names). -/

/-- The element stack of `filepath.Clean`: empty and `.` elements are skipped,
`..` removes the last real element, is dropped at the root of a rooted path,
and is kept at the front of a relative path. -/
def cleanElems (rooted : Bool) : List String → List String → List String
  | out, [] => out
  | out, e :: es =>
    if e = "" ∨ e = "." then cleanElems rooted out es
    else if e = ".." then
      if out ≠ [] ∧ out.getLast? ≠ some ".." then cleanElems rooted out.dropLast es
      else if rooted then cleanElems rooted out es
      else cleanElems rooted (out ++ [".."]) es
    else cleanElems rooted (out ++ [e]) es

/-- Go `filepath.Clean`. -/
def filepathClean (path : String) : String :=
  if path = "" then "."
  else
    let rooted := hasPrefix path "/"
    let elems := cleanElems rooted [] (stringsSplit path '/')
    if rooted then "/" ++ stringsJoin elems '/'
    else if elems = [] then "." else stringsJoin elems '/'

/-- Go `filepath.Join(a, b)`: leading empty elements are ignored, the rest is
joined with the separator and cleaned. -/
def filepathJoin (a b : String) : String :=
  if a ≠ "" then filepathClean (a ++ "/" ++ b)
  else if b ≠ "" then filepathClean b
  else ""

/-- Go `filepath.Dir`: everything up to and including the last separator,
cleaned. -/
def filepathDir (path : String) : String :=
  filepathClean (String.mk (path.data.reverse.dropWhile (fun c => c ≠ '/')).reverse)

/-- Removes the common leading elements of two element lists (the comparison
loop of `filepath.Rel`). -/
def relElems : List String → List String → List String × List String
  | b :: bs, t :: ts => if b = t then relElems bs ts else (b :: bs, t :: ts)
  | bs, ts => (bs, ts)

/-- The non-empty elements of a path. -/
def pathElems (path : String) : List String :=
  (stringsSplit path '/').filter (fun e => e ≠ "")

/-- Go `filepath.Rel(basepath, targpath)`; `none` is the error result. -/
def filepathRel (basepath targpath : String) : Option String :=
  let base := filepathClean basepath
  let targ := filepathClean targpath
  if targ = base then some "."
  else
    let base := if base = "." then "" else base
    if hasPrefix base "/" ≠ hasPrefix targ "/" then none
    else
      match relElems (pathElems base) (pathElems targ) with
      | (b, t) =>
        if b.head? = some ".." ∧ t ≠ [] then none
        else if b ≠ [] then some (stringsJoin (b.map (fun _ => "..") ++ t) '/')
        else some (stringsJoin t '/')

/-! ## Operating-system state -/

/-- What the program observes of the file system: `stat path` is `none` when
`os.Stat` fails and `some isDir` otherwise; `getwd` is `none` when `os.Getwd`
fails. -/
structure FileSystem where
  stat : String → Option Bool
  getwd : Option String

/-- Go `filepath.Abs`; `none` is the error result. -/
def filepathAbs (fs : FileSystem) (path : String) : Option String :=
  if hasPrefix path "/" then some (filepathClean path)
  else
    match fs.getwd with
    | some wd => some (filepathJoin wd path)
    | none => none

/-- The global variables of the program. -/
structure Globals where
  gitArgs : List String
  workDir : String
  noMouse : Bool
  dateFile : String
  baseURL : String
  orgAndRepo : String
deriving DecidableEq, Repr

/-- The loop of `findGitRoot` with a bound on the number of passes; `none` when
the bound is reached. -/
def findGitRootLoop (fs : FileSystem) : Nat → String → Option String
  | 0, _ => none
  | n + 1, dir =>
    if (fs.stat (filepathJoin dir ".git")).isSome then some dir
    else
      let parent := filepathDir dir
      if parent = dir then some ""
      else findGitRootLoop fs n parent

/-- The function `findGitRoot`: each pass that does not return replaces `dir`
by a different `filepath.Dir dir`, so `dir.length + 2` passes are allowed. -/
def findGitRoot (fs : FileSystem) (dir : String) : Option String :=
  findGitRootLoop fs (dir.length + 2) dir

/-! ## Path/argument resolver -/

/-- The environment part of `parseArgs` (lines 143-158); `getenv` is
`os.Getenv`, which gives the empty string for an unset variable. -/
def loadEnv (getenv : String → String) (g : Globals) : Globals :=
  let g := if getenv "GH_SHORTLOG_ARGS" ≠ "" then
    { g with gitArgs := stringsSplit (getenv "GH_SHORTLOG_ARGS") '\x1f' } else g
  let g := if getenv "GH_SHORTLOG_DIR" ≠ "" then
    { g with workDir := getenv "GH_SHORTLOG_DIR" } else g
  let g := if getenv "GH_SHORTLOG_DATE_FILE" ≠ "" then
    { g with dateFile := getenv "GH_SHORTLOG_DATE_FILE" } else g
  let g := if getenv "GH_SHORTLOG_BASE_URL" ≠ "" then
    { g with baseURL := getenv "GH_SHORTLOG_BASE_URL" } else g
  let g := if getenv "GH_SHORTLOG_ORG_REPO" ≠ "" then
    { g with orgAndRepo := getenv "GH_SHORTLOG_ORG_REPO" } else g
  g

/-- The rewrite of one path after the separator (lines 180-186): relative to
the repository root when both `filepath.Abs` and `filepath.Rel` succeed, else
unchanged. -/
def relativize (fs : FileSystem) (repoRoot p : String) : String :=
  match filepathAbs fs p with
  | some abs =>
    match filepathRel repoRoot abs with
    | some rel => rel
    | none => p
  | none => p

/-- The token loop of `parseArgs` (lines 161-225) on the tokens `args[i:]`,
with the current globals and the `remaining` list; it ends with
`gitArgs = remaining`.  `none` only when `findGitRoot` does not return. -/
def parseLoop (fs : FileSystem) : List String → Globals → List String → Option Globals
  | [], g, remaining => some { g with gitArgs := remaining }
  | arg :: rest, g, remaining =>
    if arg = "--no-mouse" then
      parseLoop fs rest { g with noMouse := true } remaining
    else if arg = "--" then
      match rest with
      | pathArg :: _ =>
        if g.workDir = "" ∧ fs.stat pathArg = some true then
          match findGitRoot fs ((filepathAbs fs pathArg).getD "") with
          | none => none
          | some repoRoot =>
            if repoRoot ≠ "" then
              some { g with workDir := repoRoot,
                            gitArgs := remaining ++ "--" :: rest.map (relativize fs repoRoot) }
            else some { g with gitArgs := remaining ++ arg :: rest }
        else some { g with gitArgs := remaining ++ arg :: rest }
      | [] => some { g with gitArgs := remaining ++ arg :: rest }
    else if g.workDir = "" ∧ ¬ hasPrefix arg "-" ∧ fs.stat arg = some true then
      match filepathAbs fs arg with
      | some absPath =>
        if (fs.stat (filepathJoin absPath ".git")).isSome then
          parseLoop fs rest { g with workDir := absPath } remaining
        else
          match findGitRoot fs absPath with
          | none => none
          | some repoRoot =>
            if repoRoot ≠ "" then
              match filepathRel repoRoot absPath with
              | some relPath =>
                parseLoop fs rest { g with workDir := repoRoot } (remaining ++ ["--", relPath])
              | none => parseLoop fs rest { g with workDir := repoRoot } (remaining ++ [arg])
            else parseLoop fs rest g (remaining ++ [arg])
      | none => parseLoop fs rest g (remaining ++ [arg])
    else parseLoop fs rest g (remaining ++ [arg])

/-- The function `parseArgs`: the environment is read first, then the tokens. -/
def parseArgs (fs : FileSystem) (getenv : String → String) (g : Globals)
    (args : List String) : Option Globals :=
  parseLoop fs args (loadEnv getenv g) []

/-- The value `launchFzf` exports as `GH_SHORTLOG_ARGS` (line 498). -/
def exportedArgs (g : Globals) : String :=
  stringsJoin g.gitArgs '\x1f'

/-! ## Selector session launcher: parsing of the captured output -/

/-- Result triple of `launchFzf`: action, query, selections. -/
structure FzfResult where
  action : String
  query : String
  selections : List String
deriving DecidableEq, Repr

/-- The selection loop of `launchFzf` (lines 555-559): the non-empty lines are
appended one by one. -/
def collectSelections (lines : List String) : List String :=
  lines.foldl (fun selections line => if line ≠ "" then selections ++ [line] else selections) []

/-- The parsing part of `launchFzf` (lines 542-574); `output` is the captured
standard output of the selector process (empty when it could not be run). -/
def launchFzf (output : String) : FzfResult :=
  let lines := stringsSplit output '\n'
  if lines.length < 2 then
    ⟨"back", "", []⟩
  else
    let query := lines.getD 0 ""
    let key := lines.getD 1 ""
    let selections := collectSelections (lines.drop 2)
    if key = "ctrl-o" then ⟨"ctrl-o", query, selections⟩
    else if key = "enter" then ⟨"ctrl-o", query, selections⟩
    else if key = "ctrl-c" ∨ key = "esc" then ⟨"back", query, selections⟩
    else if key = "ctrl-q" then ⟨"quit", query, selections⟩
    else ⟨"accept", query, selections⟩

/-! ## Interactive navigation engine -/

/-- The loop variables of `runInteractive`. -/
structure NavState where
  dateStack : List String
  currentDate : String
deriving DecidableEq, Repr

/-- Outcome of one pass through the loop body of `runInteractive`: either the
loop goes on with new variables, or the function returns having written
`stdout` to standard output. -/
inductive LoopResult where
  | continue (s : NavState)
  | exit (stdout : String)
deriving DecidableEq, Repr

/-- The loop `for _, sel := range selections { fmt.Println(sel) }`. -/
def printSelections (selections : List String) : String :=
  selections.foldl (fun out sel => out ++ sel ++ "\n") ""

/-- The `switch action` of `runInteractive` (lines 311-348). -/
def switchAction (s : NavState) (r : FzfResult) : LoopResult :=
  if r.action = "ctrl-o" then
    if r.query ≠ "" then
      .continue ⟨s.dateStack ++ [s.currentDate], r.query⟩
    else
      .continue s
  else if r.action = "back" then
    if s.dateStack.length > 0 then
      .continue ⟨s.dateStack.dropLast, s.dateStack.getLastD ""⟩
    else
      .exit ""
  else if r.action = "quit" then
    if s.dateStack.length > 0 then
      .continue ⟨s.dateStack.dropLast, s.dateStack.getLastD ""⟩
    else
      .exit (printSelections r.selections)
  else
    .exit ""

/-- One pass through the loop body of `runInteractive`, given the output the
selector produced in this pass. -/
def loopBody (s : NavState) (output : String) : LoopResult :=
  switchAction s (launchFzf output)

/-- The loop of `runInteractive` from given loop variables, driven by the
outputs of the successive selector sessions; `none` when the sessions run out
while the loop is still going. -/
def runInteractiveFrom : NavState → List String → Option String
  | _, [] => none
  | s, output :: rest =>
    match loopBody s output with
    | .continue s' => runInteractiveFrom s' rest
    | .exit stdout => some stdout

/-- The function `runInteractive`: starts with an empty stack and no filter. -/
def runInteractive (outputs : List String) : Option String :=
  runInteractiveFrom ⟨[], ""⟩ outputs

/-! ## Vocabulary of the statements -/

/-- A proper path element: not empty, without separator, neither `.` nor `..`. -/
def ValidElem (e : String) : Prop :=
  e ≠ "" ∧ '/' ∉ e.data ∧ e ≠ "." ∧ e ≠ ".."

instance (e : String) : Decidable (ValidElem e) := by
  unfold ValidElem; infer_instance

/-- Elements that `filepath.Clean` keeps or skips without looking back. -/
def PlainElem (e : String) : Prop := e = "" ∨ ValidElem e

/-- The absolute path with the given elements: `/` for no element, else
`/e₁/e₂/.../eₙ`. -/
def absPathOf (elems : List String) : String :=
  "/" ++ stringsJoin elems '/'

/-- The directory `dir` has a `.git` entry, as `parseArgs` and `findGitRoot`
test it: `os.Stat(filepath.Join(dir, ".git"))` succeeds. -/
def hasGit (fs : FileSystem) (dir : String) : Bool :=
  (fs.stat (filepathJoin dir ".git")).isSome

/-- The tokens after a chosen repository root as the resolver passes them on:
`--no-mouse` is consumed up to the first separator, everything else is kept,
and from the first separator on the tokens are copied verbatim. -/
def passRest : List String → List String
  | [] => []
  | a :: rest =>
    if a = "--no-mouse" then passRest rest
    else if a = "--" then a :: rest
    else a :: passRest rest

/-- The directory layout of the tests: a repository `/tmp/repo` with the
subdirectories `src` and `src/pkg`, below a directory `/tmp` that is in no
repository.  -/
def testFS : FileSystem :=
  ⟨fun p => if p ∈ ["/", "/tmp", "/tmp/repo", "/tmp/repo/.git", "/tmp/repo/src",
      "/tmp/repo/src/pkg"] then some true else none, some "/tmp"⟩

/-- No environment variable is set. -/
def noEnv : String → String := fun _ => ""

/-- The globals at program start. -/
def initGlobals : Globals := ⟨[], "", false, "", "", ""⟩

/-! ## History aggregator adapter: the argument list -/

/-- The scan of `generateShortlog` (lines 360-370) over `gitArgs[i:]`: the
result is `hasRevision` and `doubleDashIndex` (`-1` when there is no `--`). -/
def scanGitArgs : List String → Nat → Bool → Bool × Int
  | [], _, hasRevision => (hasRevision, -1)
  | arg :: rest, i, hasRevision =>
    if arg = "--" then (hasRevision, (i : Int))
    else if ¬ hasPrefix arg "-" then scanGitArgs rest (i + 1) true
    else scanGitArgs rest (i + 1) hasRevision

/-- The argument list `generateShortlog` builds for `git` (lines 353-386). -/
def shortlogArgs (gitArgs : List String) (sinceDate : String) : List String :=
  let args := ["shortlog", "-n", "-s", "-e"]
  let args := if sinceDate ≠ "" then args ++ ["--since=" ++ sinceDate] else args
  match scanGitArgs gitArgs 0 false with
  | (hasRevision, doubleDashIndex) =>
    if ¬ hasRevision then
      if doubleDashIndex ≥ 0 then
        args ++ gitArgs.take doubleDashIndex.toNat ++ ["HEAD"]
          ++ gitArgs.drop doubleDashIndex.toNat
      else
        args ++ gitArgs ++ ["HEAD"]
    else
      args ++ gitArgs

/-- The function `gitCommand`: the argument list of the `git` process. -/
def gitCommand (g : Globals) (args : List String) : List String :=
  if g.workDir ≠ "" then ["-C", g.workDir] ++ args else args

/-! ## History aggregator adapter: formatting -/

/-- ANSI colour code `colorReset`. -/
def colorReset : String := "\x1b[0m"

/-- ANSI colour code `colorGreen`. -/
def colorGreen : String := "\x1b[1;32m"

/-- ANSI colour code `colorWhite`. -/
def colorWhite : String := "\x1b[1;37m"

/-- ANSI colour code `colorCyan`. -/
def colorCyan : String := "\x1b[0;36m"

/-- Go `len(s)`: the number of bytes of the UTF-8 encoding. -/
def goLen (s : String) : Nat := s.utf8ByteSize

/-- Go `unicode.IsSpace`: the characters with the Unicode property
White_Space. -/
def isSpace (c : Char) : Bool :=
  decide (c.toNat ∈ [0x09, 0x0a, 0x0b, 0x0c, 0x0d, 0x20, 0x85, 0xa0, 0x1680, 0x2028, 0x2029,
    0x202f, 0x205f, 0x3000]) || (decide (0x2000 ≤ c.toNat) && decide (c.toNat ≤ 0x200a))

/-- Go `strings.TrimSpace`. -/
def trimSpace (s : String) : String :=
  String.mk ((s.data.dropWhile isSpace).reverse.dropWhile isSpace).reverse

/-- Go `strings.SplitN(s, sep, 2)` for a one-character separator: the text
before and after the first `sep`, or `s` alone when there is none. -/
def splitN2 (s : String) (sep : Char) : List String :=
  match s.data.dropWhile (fun c => c ≠ sep) with
  | [] => [s]
  | _ :: after => [String.mk (s.data.takeWhile (fun c => c ≠ sep)), String.mk after]

/-- Go `strings.TrimSuffix`. -/
def trimSuffix (s suffix : String) : String :=
  if suffix.data.isSuffixOf s.data then
    String.mk (s.data.take (s.data.length - suffix.data.length))
  else s

/-- The value of a string of decimal digits. -/
def digitsValue (ds : List Char) : Nat :=
  ds.foldl (fun n c => 10 * n + (c.toNat - 48)) 0

/-- Go `strconv.Atoi` with its error dropped (`count, _ := strconv.Atoi(...)`),
for a 64-bit `int`: an optional sign and decimal digits; `0` on a syntax
error, the nearest bound of the `int` range on overflow. -/
def atoi (s : String) : Int :=
  match s.data with
  | [] => 0
  | c :: t =>
    let neg := decide (c = '-')
    let ds := if c = '-' ∨ c = '+' then t else c :: t
    if ds = [] ∨ ¬ ds.all Char.isDigit then 0
    else if neg then
      if digitsValue ds > 2 ^ 63 then -(2 ^ 63 : Int) else -(digitsValue ds : Int)
    else
      if digitsValue ds ≥ 2 ^ 63 then (2 ^ 63 - 1 : Int) else (digitsValue ds : Int)

/-- Go `strconv.Itoa`. -/
def itoa (n : Int) : String :=
  match n with
  | Int.ofNat m => Nat.repr m
  | Int.negSucc m => "-" ++ Nat.repr (m + 1)

/-- Does the pattern `<[^>]+>$` match the whole of `text`? -/
def emailMatchAt (text : List Char) : Bool :=
  match text with
  | [] => false
  | c :: t => decide (c = '<') && decide (2 ≤ t.length) && decide (t.getLast? = some '>')
      && decide ('>' ∉ t.dropLast)

/-- The call `emailRe.FindString(rest)` for the pattern `<[^>]+>$`: the leftmost
match, or the empty text when there is none. -/
def findEmail : List Char → List Char
  | [] => []
  | c :: t => if emailMatchAt (c :: t) then c :: t else findEmail t

/-- The local type `entry` of `formatShortlogOutput`. -/
structure Entry where
  count : Int
  name : String
  email : String
deriving DecidableEq, Repr

/-- The parse of one line (lines 416-433); `none` when the line is skipped. -/
def parseLine (line : String) : Option Entry :=
  let line := trimSpace line
  if line = "" then none
  else
    match splitN2 line '\t' with
    | [part0, part1] =>
      let count := atoi (trimSpace part0)
      let rest := trimSpace part1
      let email := String.mk (findEmail rest.data)
      let name := trimSpace (trimSuffix rest email)
      some ⟨count, name, email⟩
    | _ => none

/-- The variables `entries`, `maxCount`, `maxName` of the parsing loop. -/
structure ParseState where
  entries : List Entry
  maxCount : Nat
  maxName : Nat
deriving DecidableEq, Repr

/-- One pass of the parsing loop (lines 415-442). -/
def parseStep (st : ParseState) (line : String) : ParseState :=
  match parseLine line with
  | none => st
  | some e =>
    { entries := st.entries ++ [e],
      maxCount := if goLen (itoa e.count) > st.maxCount then goLen (itoa e.count) else st.maxCount,
      maxName := if goLen e.name > st.maxName then goLen e.name else st.maxName }

/-- The verb `%Nd` of package `fmt` for width `N ≥ 0`: the text padded with
spaces on the left to at least `width` characters. -/
def padLeft (width : Nat) (s : String) : String :=
  String.mk (List.replicate (width - s.length) ' ') ++ s

/-- The verb `%-Ns` of package `fmt` for width `N ≥ 0`: the text padded with
spaces on the right to at least `width` characters (`fmt` counts runes). -/
def padRight (width : Nat) (s : String) : String :=
  s ++ String.mk (List.replicate (width - s.length) ' ')

/-- The `fmt.Fprintf` call of the output loop (lines 447-451) for the entry at
index `i`. -/
def formatRow (i maxCount maxName : Nat) (e : Entry) : String :=
  padLeft 4 (itoa ((i + 1 : Nat) : Int)) ++ "  "
    ++ colorGreen ++ padLeft maxCount (itoa e.count) ++ colorReset ++ "  "
    ++ colorWhite ++ padRight maxName e.name ++ colorReset ++ "  "
    ++ colorCyan ++ e.email ++ colorReset ++ "\n"

/-- The output loop (lines 446-452) over `entries[i:]`. -/
def writeRows (maxCount maxName : Nat) : Nat → List Entry → String
  | _, [] => ""
  | i, e :: es => formatRow i maxCount maxName e ++ writeRows maxCount maxName (i + 1) es

/-- The function `formatShortlogOutput`. -/
def formatShortlogOutput (output : String) : String :=
  let lines := stringsSplit (trimSpace output) '\n'
  if lines.length = 0 ∨ (lines.length = 1 ∧ lines.getD 0 "" = "") then ""
  else
    let st := lines.foldl parseStep ⟨[], 0, 0⟩
    writeRows st.maxCount st.maxName 0 st.entries

/-- The function `generateShortlog`; `runGit` stands for running `git` with
the given arguments and capturing its output (`none` on failure). -/
def generateShortlog (runGit : List String → Option String) (g : Globals)
    (sinceDate : String) : String :=
  match runGit (gitCommand g (shortlogArgs g.gitArgs sinceDate)) with
  | none => ""
  | some out => formatShortlogOutput out

/-- The entries `formatShortlogOutput` parses from its input, in order. -/
def parsedEntries (output : String) : List Entry :=
  (stringsSplit (trimSpace output) '\n').filterMap parseLine

/-- What the parsing loop maintains: the two widths bound the byte lengths of
all entries and are attained (or zero when there is no entry). -/
def WidthInv (st : ParseState) : Prop :=
  (∀ e ∈ st.entries, goLen (itoa e.count) ≤ st.maxCount ∧ goLen e.name ≤ st.maxName) ∧
  (st.entries = [] → st.maxCount = 0 ∧ st.maxName = 0) ∧
  (st.entries ≠ [] → (∃ e ∈ st.entries, goLen (itoa e.count) = st.maxCount) ∧
    ∃ e ∈ st.entries, goLen e.name = st.maxName)

/-- The text of the row of entry `e` at index `i`, without its final newline. -/
def rowText (i maxCount maxName : Nat) (e : Entry) : String :=
  padLeft 4 (Nat.repr (i + 1)) ++ ("  " ++ (colorGreen ++ (padLeft maxCount (itoa e.count)
    ++ (colorReset ++ ("  " ++ (colorWhite ++ (padRight maxName e.name ++ (colorReset ++ ("  "
    ++ (colorCyan ++ (e.email ++ colorReset)))))))))))

/-- The text neither starts nor ends with a white-space character. -/
def NoOuterSpace (l : List Char) : Prop :=
  (∀ c, l.head? = some c → isSpace c = false) ∧ (∀ c, l.getLast? = some c → isSpace c = false)

/-- The text has the form `<` + one or more characters other than `>` + `>`. -/
def IsEmail (l : List Char) : Prop :=
  ∃ body, body ≠ [] ∧ '>' ∉ body ∧ l = '<' :: (body ++ ['>'])

/-! ## Shell quoting -/

/-- Go `strings.ContainsAny(s, chars)`. -/
def containsAny (s chars : String) : Bool :=
  s.data.any (fun c => chars.data.contains c)

/-- Go `strings.ReplaceAll(s, old, new)` for a one-character `old`. -/
def replaceAllChar (s : String) (old : Char) (new : String) : String :=
  String.mk (s.data.flatMap (fun c => if c = old then new.data else [c]))

/-- The function `shellQuote`. -/
def shellQuote (s : String) : String :=
  if containsAny s " \t\n'\"\\" then
    "'" ++ replaceAllChar s '\'' "'\"'\"'" ++ "'"
  else s

/-- The quoting state of the shell's reader. -/
inductive QuoteState where
  | unquoted
  | single
  | double
deriving DecidableEq, Repr

/-- Modelled from the POSIX shell command language (sections 2.2 Quoting and
2.3 Token Recognition, not part of the repository): the words a text is read
as.  `cur` is the word being read (`none` between words).  Inside single
quotes every character is literal up to the closing quote; inside double
quotes every character is literal except the closing quote, the backslash
(an escape before `$`, backquote, `"`, backslash and newline) and `$` and
backquote, which start expansions; outside quotes blanks separate words, a
backslash makes the next character literal, and letters, digits and the
characters `-_./:,+@` are literal.  `none` is returned for everything else
(operators, expansions, patterns, unterminated quotes): such a text is not
read as a list of literal words. -/
def shellWords : QuoteState → Option (List Char) → List Char → Option (List String)
  | QuoteState.unquoted, cur, [] =>
    match cur with
    | none => some []
    | some w => some [String.mk w]
  | QuoteState.single, _, [] => none
  | QuoteState.double, _, [] => none
  | QuoteState.unquoted, cur, c :: rest =>
    if c = '\'' then shellWords QuoteState.single (some (cur.getD [])) rest
    else if c = '"' then shellWords QuoteState.double (some (cur.getD [])) rest
    else if c = ' ' ∨ c = '\t' then
      match cur with
      | none => shellWords QuoteState.unquoted none rest
      | some w => (shellWords QuoteState.unquoted none rest).map (fun ws => String.mk w :: ws)
    else if c = '\\' then
      match rest with
      | [] => none
      | d :: rest' =>
        if d = '\n' then shellWords QuoteState.unquoted cur rest'
        else shellWords QuoteState.unquoted (some (cur.getD [] ++ [d])) rest'
    else if c.isAlphanum ∨ c ∈ ['-', '_', '.', '/', ':', ',', '+', '@'] then
      shellWords QuoteState.unquoted (some (cur.getD [] ++ [c])) rest
    else none
  | QuoteState.single, cur, c :: rest =>
    if c = '\'' then shellWords QuoteState.unquoted cur rest
    else shellWords QuoteState.single (some (cur.getD [] ++ [c])) rest
  | QuoteState.double, cur, c :: rest =>
    if c = '"' then shellWords QuoteState.unquoted cur rest
    else if c = '\\' then
      match rest with
      | [] => none
      | d :: rest' =>
        if d = '$' ∨ d = '`' ∨ d = '"' ∨ d = '\\' then
          shellWords QuoteState.double (some (cur.getD [] ++ [d])) rest'
        else if d = '\n' then shellWords QuoteState.double cur rest'
        else shellWords QuoteState.double (some (cur.getD [] ++ ['\\', d])) rest'
    else if c = '$' ∨ c = '`' then none
    else shellWords QuoteState.double (some (cur.getD [] ++ [c])) rest

/-- The words the shell reads a command text as. -/
def shellParse (text : String) : Option (List String) :=
  shellWords QuoteState.unquoted none text.data

/-! ## Preview subcommand: the commit links -/

/-- The character class `[0-9a-f]`. -/
def isLowerHex (c : Char) : Bool :=
  (decide (48 ≤ c.toNat) && decide (c.toNat ≤ 57)) || (decide (97 ≤ c.toNat) && decide (c.toNat ≤ 102))

/-- Does the pattern `(commit )([0-9a-f]{10})([0-9a-f]{30})` match at the start
of `text`?  A match is the first 47 characters. -/
def commitMatchAt (text : List Char) : Bool :=
  "commit ".data.isPrefixOf text && decide (40 ≤ (text.drop 7).length)
    && ((text.drop 7).take 40).all isLowerHex

/-- The submatches 0 to 3 of a match at the start of `text`. -/
def commitGroups (text : List Char) : List (List Char) :=
  [text.take 47, text.take 7, (text.drop 7).take 10, (text.drop 17).take 30]

/-- The characters of a reference name in a replacement template: Go tests
`unicode.IsLetter(r) || unicode.IsDigit(r) || r == '_'`; the tables of package
`unicode` are modelled for ASCII only, every other character counts as not
part of a name. -/
def isWordRune (c : Char) : Bool :=
  c.isAlphanum || c = '_'

/-- The function `extract` of package `regexp` on the text after a `$`: the
reference name and the text after the reference; `none` when the reference is
malformed. -/
def extractRef (str : List Char) : Option (List Char × List Char) :=
  match str with
  | [] => none
  | c :: t =>
    if c = '{' then
      if t.takeWhile isWordRune = [] then none
      else
        match t.dropWhile isWordRune with
        | [] => none
        | d :: rest => if d = '}' then some (t.takeWhile isWordRune, rest) else none
    else
      if (c :: t).takeWhile isWordRune = [] then none
      else some ((c :: t).takeWhile isWordRune, (c :: t).dropWhile isWordRune)

/-- The number of a reference name (the loop of `extract`): `none` for a name
that is not a number of at most nine digits without leading zero. -/
def refNumber (name : List Char) : Option Nat :=
  let num := name.foldl
    (fun acc ch =>
      match acc with
      | none => none
      | some n => if ¬ ch.isDigit ∨ n ≥ 10 ^ 8 then none else some (n * 10 + (ch.toNat - 48)))
    (some 0)
  if name.head? = some '0' ∧ name.length > 1 then none else num

/-- The text a reference stands for: the submatch with that number when there
is one, nothing otherwise (the pattern has no named group). -/
def refValue (groups : List (List Char)) (name : List Char) : List Char :=
  match refNumber name with
  | some n => groups.getD n []
  | none => []

/-- The method `expand` of package `regexp` on the template text; `skip` is
the number of characters still to pass over after a reference. -/
def expandTemplate (groups : List (List Char)) : Nat → List Char → List Char
  | _, [] => []
  | skip + 1, _ :: t => expandTemplate groups skip t
  | 0, c :: t =>
    if c ≠ '$' then c :: expandTemplate groups 0 t
    else if t.head? = some '$' then '$' :: expandTemplate groups 1 t
    else
      match extractRef t with
      | none => '$' :: expandTemplate groups 0 t
      | some (name, rest) =>
        refValue groups name ++ expandTemplate groups (t.length - rest.length) t

/-- The call `re.ReplaceAllString(output, template)`: every match, found from
left to right without overlap, is replaced by the expanded template; `skip` is
the number of characters of the current match still to pass over. -/
def replaceCommits (template : List Char) : Nat → List Char → List Char
  | _, [] => []
  | skip + 1, _ :: t => replaceCommits template skip t
  | 0, c :: t =>
    if commitMatchAt (c :: t) then
      expandTemplate (commitGroups (c :: t)) 0 template ++ replaceCommits template 46 t
    else c :: replaceCommits template 0 t

/-- The rewrite of the log output in `runPreviewSubcommand` (lines 615-621). -/
def rewriteCommitLinks (baseURL output : String) : String :=
  if baseURL ≠ "" then
    String.mk (replaceCommits ("${1}" ++ baseURL ++ "/${2}").data 0 output.data)
  else output

/-- The text starts with `commit ` followed by 40 characters of `[0-9a-f]`. -/
def IsCommitRef (text : List Char) : Prop :=
  ∃ h rest, text = "commit ".data ++ h ++ rest ∧ h.length = 40 ∧ ∀ c ∈ h, isLowerHex c = true

/-! ## Browser subcommand: the author of an email -/

/-- Go `strings.Trim(s, cutset)`. -/
def stringsTrim (s cutset : String) : String :=
  String.mk (((s.data.dropWhile (fun c => cutset.data.contains c)).reverse.dropWhile
    (fun c => cutset.data.contains c)).reverse)

/-- The call `re.FindStringSubmatch(author)` for the pattern
`^[^+]+\+([^@]+)@.*$`: the first submatch when the pattern matches.  The text
before the first `+` must not be empty, and so the text from there to the
next `@`; what follows that `@` must have no newline. -/
def noreplyMatch (author : List Char) : Option (List Char) :=
  match author.dropWhile (fun c => c ≠ '+') with
  | [] => none
  | _ :: afterPlus =>
    if author.takeWhile (fun c => c ≠ '+') = [] then none
    else
      match afterPlus.dropWhile (fun c => c ≠ '@') with
      | [] => none
      | _ :: afterAt =>
        if afterPlus.takeWhile (fun c => c ≠ '@') = [] then none
        else if '\n' ∈ afterAt then none
        else some (afterPlus.takeWhile (fun c => c ≠ '@'))

/-- The author `runBrowserSubcommand` computes from its argument (lines
665-672) and passes to `getGitHubLogin`. -/
def browserAuthor (email : String) : String :=
  let author := stringsTrim email "<>"
  match noreplyMatch author.data with
  | some handle => String.mk handle
  | none => author

/-- The text neither starts nor ends with `<` or `>`. -/
def NoOuterAngle (l : List Char) : Prop :=
  (∀ c, l.head? = some c → c ≠ '<' ∧ c ≠ '>') ∧ (∀ c, l.getLast? = some c → c ≠ '<' ∧ c ≠ '>')

/-! ## Lemmas on the selector output and the navigation step -/

theorem collectSelections_aux (lines acc : List String) :
    lines.foldl (fun selections line => if line ≠ "" then selections ++ [line] else selections) acc
      = acc ++ lines.filter (fun line => line ≠ "") := by
  induction lines generalizing acc with
  | nil => simp
  | cons l ls ih =>
    rw [List.foldl_cons, ih, List.filter_cons]
    by_cases h : l = ""
    · simp [h]
    · simp [h]

theorem collectSelections_eq_filter (lines : List String) :
    collectSelections lines = lines.filter (fun line => line ≠ "") := by
  rw [collectSelections, collectSelections_aux, List.nil_append]

theorem join_cons_eq (s : String) (l : List String) :
    String.join (s :: l) = s ++ String.join l := by
  have key : ∀ (l : List String) (acc : String),
      l.foldl (fun r s => r ++ s) acc = acc ++ l.foldl (fun r s => r ++ s) "" := by
    intro l
    induction l with
    | nil => intro acc; simp
    | cons a t ih =>
      intro acc
      rw [List.foldl_cons, List.foldl_cons, ih (acc ++ a), ih ("" ++ a), String.empty_append,
        String.append_assoc]
  unfold String.join
  rw [List.foldl_cons, key, String.empty_append]

theorem printSelections_aux (sels : List String) (acc : String) :
    sels.foldl (fun out sel => out ++ sel ++ "\n") acc
      = acc ++ String.join (sels.map (fun sel => sel ++ "\n")) := by
  induction sels generalizing acc with
  | nil => simp [String.join]
  | cons l ls ih =>
    rw [List.foldl_cons, ih, List.map_cons, join_cons_eq]
    simp only [String.append_assoc]

theorem printSelections_eq_join (sels : List String) :
    printSelections sels = String.join (sels.map (fun sel => sel ++ "\n")) := by
  rw [printSelections, printSelections_aux, String.empty_append]

theorem launchFzf_of_lines (out q key : String) (tail : List String)
    (hlines : stringsSplit out '\n' = q :: key :: tail) :
    launchFzf out =
      if key = "ctrl-o" then ⟨"ctrl-o", q, tail.filter (fun l => l ≠ "")⟩
      else if key = "enter" then ⟨"ctrl-o", q, tail.filter (fun l => l ≠ "")⟩
      else if key = "ctrl-c" ∨ key = "esc" then ⟨"back", q, tail.filter (fun l => l ≠ "")⟩
      else if key = "ctrl-q" then ⟨"quit", q, tail.filter (fun l => l ≠ "")⟩
      else ⟨"accept", q, tail.filter (fun l => l ≠ "")⟩ := by
  simp only [launchFzf, hlines, collectSelections_eq_filter]
  simp

theorem launchFzf_of_short (out : String) (h : (stringsSplit out '\n').length < 2) :
    launchFzf out = ⟨"back", "", []⟩ := by
  simp [launchFzf, h]

theorem pop_snoc (S : List String) (d : String) :
    (S ++ [d]).dropLast = S ∧ (S ++ [d]).getLastD "" = d ∧ (S ++ [d]).length > 0 := by
  refine ⟨List.dropLast_concat, ?_, by simp⟩
  cases S <;> simp [List.getLastD]

theorem runInteractiveFrom_exit (s : NavState) (out stdout : String) (later : List String)
    (h : loopBody s out = .exit stdout) : runInteractiveFrom s (out :: later) = some stdout := by
  rw [runInteractiveFrom, h]

theorem runInteractiveFrom_continue (s s' : NavState) (out : String) (later : List String)
    (h : loopBody s out = .continue s') :
    runInteractiveFrom s (out :: later) = runInteractiveFrom s' later := by
  rw [runInteractiveFrom, h]


/-! ## Lemmas on strings and paths -/

theorem intercalate_cons_cons (sep a b : List Char) (l : List (List Char)) :
    sep.intercalate (a :: b :: l) = a ++ sep ++ sep.intercalate (b :: l) := by
  simp [List.intercalate, List.intersperse, List.flatten]

theorem intercalate_append_singleton (sep c : List Char) (l : List (List Char)) (hl : l ≠ []) :
    sep.intercalate (l ++ [c]) = sep.intercalate l ++ sep ++ c := by
  induction l with
  | nil => exact absurd rfl hl
  | cons a t ih =>
    cases t with
    | nil => simp [List.intercalate, List.intersperse, List.flatten]
    | cons b t =>
      have := ih (List.cons_ne_nil b t)
      rw [List.cons_append, List.cons_append, intercalate_cons_cons, ← List.cons_append, this,
        intercalate_cons_cons]
      simp [List.append_assoc]

theorem stringsSplit_stringsJoin (es : List String) (sep : Char) (hne : es ≠ [])
    (h : ∀ e ∈ es, sep ∉ e.data) : stringsSplit (stringsJoin es sep) sep = es := by
  unfold stringsSplit stringsJoin
  rw [List.splitOn_intercalate]
  · rw [List.map_map]
    conv_rhs => rw [← List.map_id es]
    apply List.map_congr_left
    intro a _
    rfl
  · intro l hl
    rw [List.mem_map] at hl
    obtain ⟨e, he, rfl⟩ := hl
    exact h e he
  · simpa using hne

theorem stringsJoin_cons_cons (a b : String) (l : List String) (sep : Char) :
    stringsJoin (a :: b :: l) sep = a ++ String.singleton sep ++ stringsJoin (b :: l) sep := by
  apply String.ext
  simp [stringsJoin, intercalate_cons_cons, String.data_append, String.singleton]

theorem stringsJoin_append_singleton (l : List String) (c : String) (sep : Char) (hl : l ≠ []) :
    stringsJoin (l ++ [c]) sep = stringsJoin l sep ++ String.singleton sep ++ c := by
  apply String.ext
  have h : l.map String.data ≠ [] := by simpa using hl
  simp [stringsJoin, intercalate_append_singleton _ _ _ h, String.data_append, String.singleton]

theorem cleanElems_plain (rooted : Bool) (es out : List String) (h : ∀ e ∈ es, PlainElem e) :
    cleanElems rooted out es = out ++ es.filter (fun e => e ≠ "") := by
  induction es generalizing out with
  | nil => simp [cleanElems]
  | cons e es ih =>
    have he := h e (List.mem_cons_self _ _)
    have ih' := fun out => ih out (fun x hx => h x (List.mem_cons_of_mem _ hx))
    rcases he with rfl | ⟨h1, _, h3, h4⟩
    · simp [cleanElems, ih']
    · simp [cleanElems, ih', h1, h3, h4]

theorem filter_valid (cs : List String) (h : ∀ c ∈ cs, ValidElem c) :
    cs.filter (fun e => e ≠ "") = cs := by
  rw [List.filter_eq_self]
  intro a ha
  simpa using (h a ha).1

theorem absPathOf_eq_join (cs : List String) (hne : cs ≠ []) :
    absPathOf cs = stringsJoin ("" :: cs) '/' := by
  cases cs with
  | nil => exact absurd rfl hne
  | cons a t =>
    rw [stringsJoin_cons_cons, absPathOf]
    rfl

theorem absPathOf_nil : absPathOf [] = "/" := by decide

theorem plainElem_no_sep (e : String) (h : PlainElem e) : '/' ∉ e.data := by
  rcases h with rfl | h
  · simp
  · exact h.2.1

theorem join_rooted_data (es : List String) (hne : es ≠ []) :
    (stringsJoin ("" :: es) '/').data = '/' :: (stringsJoin es '/').data := by
  cases es with
  | nil => exact absurd rfl hne
  | cons a t =>
    rw [stringsJoin_cons_cons]
    simp [String.data_append, String.singleton]

/-- Cleaning a rooted path written with plain elements keeps the non-empty ones. -/
theorem filepathClean_join (es : List String) (hne : es ≠ []) (h : ∀ e ∈ es, PlainElem e) :
    filepathClean (stringsJoin ("" :: es) '/') = absPathOf (es.filter (fun e => e ≠ "")) := by
  have hd := join_rooted_data es hne
  have h1 : stringsJoin ("" :: es) '/' ≠ "" := by
    intro h0
    rw [h0] at hd
    simp at hd
  have h2 : hasPrefix (stringsJoin ("" :: es) '/') "/" = true := by
    simp [hasPrefix, hd]
  have h3 : stringsSplit (stringsJoin ("" :: es) '/') '/' = "" :: es := by
    apply stringsSplit_stringsJoin _ _ (List.cons_ne_nil _ _)
    intro e he
    rcases List.mem_cons.1 he with rfl | he
    · simp
    · exact plainElem_no_sep e (h e he)
  have h4 : cleanElems true [] ("" :: es) = es.filter (fun e => e ≠ "") := by
    rw [cleanElems_plain true ("" :: es) [] ?_]
    · simp
    · intro e he
      rcases List.mem_cons.1 he with rfl | he
      · exact Or.inl rfl
      · exact h e he
  simp only [filepathClean, h1, h2, h3, h4, if_true, if_false, absPathOf]

theorem filepathClean_absPathOf (cs : List String) (h : ∀ c ∈ cs, ValidElem c) :
    filepathClean (absPathOf cs) = absPathOf cs := by
  by_cases hne : cs = []
  · subst hne; decide
  · rw [absPathOf_eq_join cs hne, filepathClean_join cs hne (fun e he => Or.inr (h e he)),
      filter_valid cs h, absPathOf_eq_join cs hne]

theorem absPathOf_data (cs : List String) :
    (absPathOf cs).data = '/' :: (stringsJoin cs '/').data := by
  simp [absPathOf, String.data_append]

theorem absPathOf_ne_empty (cs : List String) : absPathOf cs ≠ "" := by
  intro h
  have := absPathOf_data cs
  rw [h] at this
  simp at this

theorem hasPrefix_absPathOf (cs : List String) : hasPrefix (absPathOf cs) "/" = true := by
  simp [hasPrefix, absPathOf_data]

theorem filepathJoin_absPathOf (cs : List String) (c : String) (h : ∀ e ∈ cs, ValidElem e)
    (hc : ValidElem c) : filepathJoin (absPathOf cs) c = absPathOf (cs ++ [c]) := by
  have hv : ∀ e ∈ cs ++ [c], ValidElem e := by
    intro e he
    rcases List.mem_append.1 he with he | he
    · exact h e he
    · rw [List.mem_singleton.1 he]; exact hc
  simp only [filepathJoin, absPathOf_ne_empty, ne_eq, not_false_eq_true, if_true]
  by_cases hne : cs = []
  · subst hne
    have : absPathOf [] ++ "/" ++ c = stringsJoin ("" :: ["", c]) '/' := by
      apply String.ext
      simp [absPathOf, stringsJoin, String.data_append, List.intercalate, List.intersperse,
        List.flatten]
    rw [this, filepathClean_join]
    · simp [hc.1]
    · simp
    · intro e he
      simp at he
      rcases he with rfl | rfl
      · exact Or.inl rfl
      · exact Or.inr hc
  · have : absPathOf cs ++ "/" ++ c = absPathOf (cs ++ [c]) := by
      rw [absPathOf, absPathOf, stringsJoin_append_singleton _ _ _ hne]
      simp only [String.append_assoc]
      rfl
    rw [this, filepathClean_absPathOf _ hv]

theorem dropWhile_append_stop (p : Char → Bool) (l r : List Char) (a : Char)
    (hl : ∀ x ∈ l, p x = true) (ha : p a = false) :
    (l ++ a :: r).dropWhile p = a :: r := by
  induction l with
  | nil => simp [List.dropWhile, ha]
  | cons x t ih =>
    rw [List.cons_append, List.dropWhile_cons, hl x (List.mem_cons_self _ _)]
    exact ih (fun y hy => hl y (List.mem_cons_of_mem _ hy))

theorem absPathOf_snoc (cs : List String) (c : String) (hne : cs ≠ []) :
    absPathOf (cs ++ [c]) = absPathOf cs ++ "/" ++ c := by
  rw [absPathOf, absPathOf, stringsJoin_append_singleton _ _ _ hne]
  simp only [String.append_assoc]
  rfl

theorem filepathDir_snoc_data (pre : List Char) (c : String) (hc : '/' ∉ c.data) :
    filepathDir (String.mk (pre ++ '/' :: c.data)) = filepathClean (String.mk (pre ++ ['/'])) := by
  unfold filepathDir
  congr 2
  simp only [List.reverse_append, List.reverse_cons, List.append_assoc, List.singleton_append]
  rw [dropWhile_append_stop]
  · simp
  · intro x hx
    have : x ≠ '/' := by
      rintro rfl
      exact hc (List.mem_reverse.1 hx)
    simpa using this
  · simp

theorem filepathDir_absPathOf_snoc (cs : List String) (c : String)
    (h : ∀ e ∈ cs, ValidElem e) (hc : ValidElem c) :
    filepathDir (absPathOf (cs ++ [c])) = absPathOf cs := by
  by_cases hne : cs = []
  · subst hne
    have h1 : absPathOf ([] ++ [c]) = String.mk ([] ++ '/' :: c.data) := by
      apply String.ext
      simp [absPathOf, stringsJoin, String.data_append, List.intercalate, List.intersperse,
        List.flatten]
    rw [h1, filepathDir_snoc_data _ _ hc.2.1]
    decide
  · have h1 : absPathOf (cs ++ [c]) = String.mk ((absPathOf cs).data ++ '/' :: c.data) := by
      rw [absPathOf_snoc _ _ hne]
      apply String.ext
      simp [String.data_append]
    have h2 : String.mk ((absPathOf cs).data ++ ['/']) = stringsJoin ("" :: (cs ++ [""])) '/' := by
      rw [← List.cons_append, stringsJoin_append_singleton _ _ _ (List.cons_ne_nil _ _),
        ← absPathOf_eq_join cs hne]
      apply String.ext
      simp [String.data_append, String.singleton]
    rw [h1, filepathDir_snoc_data _ _ hc.2.1, h2, filepathClean_join]
    · rw [List.filter_append, filter_valid cs h]
      simp
    · simp
    · intro e he
      rcases List.mem_append.1 he with he | he
      · exact Or.inr (h e he)
      · rw [List.mem_singleton.1 he]; exact Or.inl rfl

theorem filepathDir_root : filepathDir (absPathOf []) = absPathOf [] := by decide

theorem pathElems_absPathOf (cs : List String) (h : ∀ c ∈ cs, ValidElem c) :
    pathElems (absPathOf cs) = cs := by
  by_cases hne : cs = []
  · subst hne; decide
  · rw [pathElems, absPathOf_eq_join cs hne, stringsSplit_stringsJoin _ _ (List.cons_ne_nil _ _)]
    · rw [List.filter_cons, filter_valid cs h]
      simp
    · intro e he
      rcases List.mem_cons.1 he with rfl | he
      · simp
      · exact (h e he).2.1

theorem absPathOf_injective (cs ds : List String) (hc : ∀ c ∈ cs, ValidElem c)
    (hd : ∀ c ∈ ds, ValidElem c) (h : absPathOf cs = absPathOf ds) : cs = ds := by
  rw [← pathElems_absPathOf cs hc, ← pathElems_absPathOf ds hd, h]

theorem relElems_prefix (rs ds : List String) : relElems rs (rs ++ ds) = ([], ds) := by
  induction rs with
  | nil => cases ds <;> simp [relElems]
  | cons r rs ih => simp [relElems, ih]

theorem filepathRel_absPathOf (rs ds : List String) (hr : ∀ c ∈ rs, ValidElem c)
    (hd : ∀ c ∈ ds, ValidElem c) (hne : ds ≠ []) :
    filepathRel (absPathOf rs) (absPathOf (rs ++ ds)) = some (stringsJoin ds '/') := by
  have hrd : ∀ c ∈ rs ++ ds, ValidElem c := by
    intro c hc
    rcases List.mem_append.1 hc with hc | hc
    · exact hr c hc
    · exact hd c hc
  have hneq : absPathOf (rs ++ ds) ≠ absPathOf rs := by
    intro h
    have := absPathOf_injective _ _ hrd hr h
    exact hne (by simpa using this)
  have hdot : absPathOf rs ≠ "." := by
    intro h
    have := hasPrefix_absPathOf rs
    rw [h] at this
    exact absurd this (by decide)
  simp only [filepathRel, filepathClean_absPathOf _ hr, filepathClean_absPathOf _ hrd, hneq, hdot,
    if_false, hasPrefix_absPathOf, pathElems_absPathOf _ hr, pathElems_absPathOf _ hrd,
    relElems_prefix]
  simp

theorem length_le_absPathOf (cs : List String) : cs.length ≤ (absPathOf cs).length := by
  induction cs using List.reverseRecOn with
  | nil => simp
  | append_singleton cs c ih =>
    by_cases hne : cs = []
    · subst hne
      have : ("/" : String).length = 1 := by decide
      simp only [absPathOf, String.length_append, List.nil_append, List.length_singleton, this]
      omega
    · rw [absPathOf_snoc _ _ hne]
      simp only [String.length_append, List.length_append, List.length_singleton]
      have : ("/" : String).length = 1 := by decide
      omega

theorem validElem_git : ValidElem ".git" := by decide

theorem valid_append {cs ds : List String} (hc : ∀ c ∈ cs, ValidElem c)
    (hd : ∀ c ∈ ds, ValidElem c) : ∀ c ∈ cs ++ ds, ValidElem c := by
  intro c h
  rcases List.mem_append.1 h with h | h
  · exact hc c h
  · exact hd c h

/-- The walk of `findGitRoot` from `/rs/ds` stops at `/rs` when that is the
first directory on the way up with a `.git` entry. -/
theorem findGitRootLoop_found (fs : FileSystem) (rs ds : List String)
    (hr : ∀ c ∈ rs, ValidElem c) (hd : ∀ c ∈ ds, ValidElem c)
    (hroot : hasGit fs (absPathOf rs) = true)
    (hbelow : ∀ k, 1 ≤ k → k ≤ ds.length → hasGit fs (absPathOf (rs ++ ds.take k)) = false)
    (fuel : Nat) (hfuel : ds.length < fuel) :
    findGitRootLoop fs fuel (absPathOf (rs ++ ds)) = some (absPathOf rs) := by
  induction ds using List.reverseRecOn generalizing fuel with
  | nil =>
    cases fuel with
    | zero => exact absurd hfuel (by simp)
    | succ n =>
      have : (fs.stat (filepathJoin (absPathOf rs) ".git")).isSome = true := hroot
      simp [findGitRootLoop, this]
  | append_singleton ds c ih =>
    cases fuel with
    | zero => exact absurd hfuel (by simp)
    | succ n =>
      have hds : ∀ e ∈ ds, ValidElem e := fun e he => hd e (List.mem_append_left _ he)
      have hc : ValidElem c := hd c (List.mem_append_right _ (List.mem_singleton_self c))
      have hno : (fs.stat (filepathJoin (absPathOf (rs ++ (ds ++ [c]))) ".git")).isSome = false := by
        have := hbelow (ds ++ [c]).length (by simp) (le_refl _)
        rwa [List.take_length] at this
      have hdir : filepathDir (absPathOf (rs ++ (ds ++ [c]))) = absPathOf (rs ++ ds) := by
        rw [← List.append_assoc]
        exact filepathDir_absPathOf_snoc _ _ (valid_append hr hds) hc
      have hne : absPathOf (rs ++ ds) ≠ absPathOf (rs ++ (ds ++ [c])) := by
        intro h
        have := absPathOf_injective _ _ (valid_append hr hds) (valid_append hr hd) h
        have hl := congrArg List.length this
        simp at hl
      rw [findGitRootLoop]
      simp only [hno, hdir, hne, if_false, Bool.false_eq_true]
      apply ih hds
      · intro k hk1 hk2
        have := hbelow k hk1 (by simp; omega)
        rwa [List.take_append_of_le_length hk2] at this
      · simp at hfuel
        omega

theorem findGitRoot_found (fs : FileSystem) (rs ds : List String)
    (hr : ∀ c ∈ rs, ValidElem c) (hd : ∀ c ∈ ds, ValidElem c)
    (hroot : hasGit fs (absPathOf rs) = true)
    (hbelow : ∀ k, 1 ≤ k → k ≤ ds.length → hasGit fs (absPathOf (rs ++ ds.take k)) = false) :
    findGitRoot fs (absPathOf (rs ++ ds)) = some (absPathOf rs) := by
  apply findGitRootLoop_found fs rs ds hr hd hroot hbelow
  have := length_le_absPathOf (rs ++ ds)
  simp at this
  omega

theorem filepathAbs_absPathOf (fs : FileSystem) (cs : List String) (h : ∀ c ∈ cs, ValidElem c) :
    filepathAbs fs (absPathOf cs) = some (absPathOf cs) := by
  simp [filepathAbs, hasPrefix_absPathOf, filepathClean_absPathOf cs h]

theorem absPathOf_not_flag (cs : List String) : hasPrefix (absPathOf cs) "-" = false := by
  rw [hasPrefix, absPathOf_data]
  have : ("-" : String).data = ['-'] := rfl
  rw [this, List.isPrefixOf]
  simp

/-! ## Lemmas on the token loop -/

theorem loadEnv_workDir (getenv : String → String) (g : Globals) :
    (loadEnv getenv g).workDir =
      if getenv "GH_SHORTLOG_DIR" ≠ "" then getenv "GH_SHORTLOG_DIR" else g.workDir := by
  unfold loadEnv
  split_ifs <;> rfl

theorem loadEnv_noMouse (getenv : String → String) (g : Globals) :
    (loadEnv getenv g).noMouse = g.noMouse := by
  unfold loadEnv
  split_ifs <;> rfl

theorem loadEnv_gitArgs (getenv : String → String) (g : Globals) :
    (loadEnv getenv g).gitArgs =
      if getenv "GH_SHORTLOG_ARGS" ≠ "" then stringsSplit (getenv "GH_SHORTLOG_ARGS") '\x1f'
      else g.gitArgs := by
  unfold loadEnv
  split_ifs <;> rfl

theorem parseLoop_nil (fs : FileSystem) (g : Globals) (remaining : List String) :
    parseLoop fs [] g remaining = some { g with gitArgs := remaining } := by
  unfold parseLoop
  rfl

theorem parseLoop_noMouse (fs : FileSystem) (rest : List String) (g : Globals)
    (remaining : List String) :
    parseLoop fs ("--no-mouse" :: rest) g remaining =
      parseLoop fs rest { g with noMouse := true } remaining := by
  conv_lhs => unfold parseLoop
  simp

theorem parseLoop_sep (fs : FileSystem) (rest : List String) (g : Globals)
    (remaining : List String) :
    parseLoop fs ("--" :: rest) g remaining =
      match rest with
      | pathArg :: _ =>
        if g.workDir = "" ∧ fs.stat pathArg = some true then
          match findGitRoot fs ((filepathAbs fs pathArg).getD "") with
          | none => none
          | some repoRoot =>
            if repoRoot ≠ "" then
              some { g with workDir := repoRoot,
                            gitArgs := remaining ++ "--" :: rest.map (relativize fs repoRoot) }
            else some { g with gitArgs := remaining ++ "--" :: rest }
        else some { g with gitArgs := remaining ++ "--" :: rest }
      | [] => some { g with gitArgs := remaining ++ "--" :: rest } := by
  conv_lhs => unfold parseLoop
  rw [if_neg (by decide), if_pos rfl]

theorem parseLoop_default (fs : FileSystem) (arg : String) (rest : List String) (g : Globals)
    (remaining : List String) (h1 : arg ≠ "--no-mouse") (h2 : arg ≠ "--") :
    parseLoop fs (arg :: rest) g remaining =
      if g.workDir = "" ∧ ¬ hasPrefix arg "-" ∧ fs.stat arg = some true then
        match filepathAbs fs arg with
        | some absPath =>
          if (fs.stat (filepathJoin absPath ".git")).isSome then
            parseLoop fs rest { g with workDir := absPath } remaining
          else
            match findGitRoot fs absPath with
            | none => none
            | some repoRoot =>
              if repoRoot ≠ "" then
                match filepathRel repoRoot absPath with
                | some relPath =>
                  parseLoop fs rest { g with workDir := repoRoot } (remaining ++ ["--", relPath])
                | none => parseLoop fs rest { g with workDir := repoRoot } (remaining ++ [arg])
              else parseLoop fs rest g (remaining ++ [arg])
        | none => parseLoop fs rest g (remaining ++ [arg])
      else parseLoop fs rest g (remaining ++ [arg]) := by
  conv_lhs => unfold parseLoop
  rw [if_neg h1, if_neg h2]

/-- Tokens that are neither the separator nor looked up as a directory are
copied to `remaining`, except `--no-mouse`, which sets the flag. -/
theorem parseLoop_plain (fs : FileSystem) (F more : List String) (g : Globals)
    (remaining : List String)
    (h : ∀ a ∈ F, a ≠ "--" ∧ (g.workDir ≠ "" ∨ hasPrefix a "-" = true ∨ fs.stat a ≠ some true)) :
    parseLoop fs (F ++ more) g remaining =
      parseLoop fs more { g with noMouse := g.noMouse || decide ("--no-mouse" ∈ F) }
        (remaining ++ F.filter (fun a => a ≠ "--no-mouse")) := by
  induction F generalizing g remaining with
  | nil => simp
  | cons a F ih =>
    have ha := h a (List.mem_cons_self _ _)
    have hF := fun x hx => h x (List.mem_cons_of_mem _ hx)
    rw [List.cons_append]
    by_cases hnm : a = "--no-mouse"
    · subst hnm
      rw [parseLoop_noMouse, ih { g with noMouse := true } remaining hF]
      simp
    · rw [parseLoop_default _ _ _ _ _ hnm ha.1]
      have hcond : ¬ (g.workDir = "" ∧ ¬ hasPrefix a "-" = true ∧ fs.stat a = some true) := by
        rintro ⟨h1, h2, h3⟩
        rcases ha.2 with h | h | h
        · exact h h1
        · exact h2 h
        · exact h h3
      rw [if_neg hcond, ih g (remaining ++ [a]) hF]
      have : (decide ("--no-mouse" ∈ a :: F)) = decide ("--no-mouse" ∈ F) := by
        simp [List.mem_cons, Ne.symm hnm]
      rw [this, List.filter_cons]
      simp [hnm]

/-- Once a repository root is chosen, the later tokens are passed on by
`passRest` and the root stays. -/
theorem parseLoop_rest (fs : FileSystem) (rest : List String) (g : Globals)
    (remaining : List String) (hw : g.workDir ≠ "") :
    (parseLoop fs rest g remaining).map (fun r => (r.workDir, r.gitArgs)) =
      some (g.workDir, remaining ++ passRest rest) := by
  induction rest generalizing g remaining with
  | nil => simp [parseLoop_nil, passRest]
  | cons a rest ih =>
    rw [passRest]
    by_cases hnm : a = "--no-mouse"
    · subst hnm
      rw [parseLoop_noMouse, if_pos rfl]
      exact ih _ _ hw
    · rw [if_neg hnm]
      by_cases hdd : a = "--"
      · subst hdd
        rw [parseLoop_sep, if_pos rfl]
        cases rest with
        | nil => simp
        | cons p rest => simp [hw]
      · rw [parseLoop_default _ _ _ _ _ hnm hdd, if_neg hdd, if_neg (fun hc => hw hc.1),
          ih _ _ hw]
        simp


/-! ## Lemmas on the formatting helpers -/

theorem digitChar_isDigit (m : Nat) (h : m < 10) : (Nat.digitChar m).isDigit = true := by
  interval_cases m <;> decide

theorem toDigitsCore_chars (fuel n : Nat) (ds : List Char) :
    ∀ c ∈ Nat.toDigitsCore 10 fuel n ds, c ∈ ds ∨ c.isDigit = true := by
  induction fuel generalizing n ds with
  | zero => intro c hc; exact Or.inl (by simpa [Nat.toDigitsCore] using hc)
  | succ f ih =>
    intro c hc
    rw [Nat.toDigitsCore] at hc
    have hd : (Nat.digitChar (n % 10)).isDigit = true :=
      digitChar_isDigit _ (Nat.mod_lt _ (by decide))
    split at hc
    · rcases List.mem_cons.1 hc with rfl | h
      · exact Or.inr hd
      · exact Or.inl h
    · rcases ih _ _ c hc with h | h
      · rcases List.mem_cons.1 h with rfl | h
        · exact Or.inr hd
        · exact Or.inl h
      · exact Or.inr h

theorem repr_chars (n : Nat) : ∀ c ∈ (Nat.repr n).data, c.isDigit = true := by
  intro c hc
  have : c ∈ Nat.toDigitsCore 10 (n + 1) n [] := by
    simpa [Nat.repr, Nat.toDigits, List.asString] using hc
  rcases toDigitsCore_chars _ _ _ c this with h | h
  · simp at h
  · exact h

/-- The characters of `itoa n` are decimal digits or the sign. -/
theorem itoa_chars (n : Int) : ∀ c ∈ (itoa n).data, c.isDigit = true ∨ c = '-' := by
  intro c hc
  cases n with
  | ofNat m => exact Or.inl (repr_chars m c hc)
  | negSucc m =>
    have : c ∈ ("-" ++ Nat.repr (m + 1)).data := hc
    rw [String.data_append] at this
    rcases List.mem_append.1 this with h | h
    · right
      have : c ∈ ['-'] := h
      simpa using this
    · exact Or.inl (repr_chars _ c h)

theorem length_le_goLen (s : String) : s.length ≤ goLen s := by
  have key : ∀ cs : List Char, cs.length ≤ String.utf8Len cs := by
    intro cs
    induction cs with
    | nil => simp
    | cons c cs ih =>
      have := Char.utf8Size_pos c
      simp only [List.length_cons, String.utf8Len_cons]
      omega
  exact key s.data

theorem goLen_of_ascii (s : String) (h : ∀ c ∈ s.data, c.toNat < 128) :
    goLen s = s.length := by
  have key : ∀ cs : List Char, (∀ c ∈ cs, c.toNat < 128) → String.utf8Len cs = cs.length := by
    intro cs
    induction cs with
    | nil => simp
    | cons c cs ih =>
      intro hc
      have h1 : c.utf8Size = 1 := by
        have := hc c (List.mem_cons_self _ _)
        simp only [Char.utf8Size]
        have h2 : c.val ≤ 127 := by
          show c.val.toNat ≤ 127
          have : c.val.toNat = c.toNat := rfl
          omega
        simp [h2]
      simp only [String.utf8Len_cons, List.length_cons, h1,
        ih (fun x hx => hc x (List.mem_cons_of_mem _ hx))]
  exact key s.data h


theorem foldl_parseStep_entries (lines : List String) (st : ParseState) :
    (lines.foldl parseStep st).entries = st.entries ++ lines.filterMap parseLine := by
  induction lines generalizing st with
  | nil => simp
  | cons l ls ih =>
    rw [List.foldl_cons, ih]
    cases h : parseLine l with
    | none => simp [parseStep, h, List.filterMap_cons]
    | some e => simp [parseStep, h, List.filterMap_cons]

theorem widthInv_parseStep (st : ParseState) (line : String) (h : WidthInv st) :
    WidthInv (parseStep st line) := by
  unfold parseStep
  cases hp : parseLine line with
  | none => exact h
  | some e =>
    obtain ⟨h1, h2, h3⟩ := h
    refine ⟨?_, ?_, ?_⟩
    · intro x hx
      simp only [List.mem_append, List.mem_singleton] at hx
      rcases hx with hx | rfl
      · have := h1 x hx
        constructor
        · show _ ≤ (if _ then _ else _); split_ifs <;> omega
        · show _ ≤ (if _ then _ else _); split_ifs <;> omega
      · constructor
        · show _ ≤ (if _ then _ else _); split_ifs <;> omega
        · show _ ≤ (if _ then _ else _); split_ifs <;> omega
    · intro hnil
      simp at hnil
    · intro _
      by_cases hnil : st.entries = []
      · obtain ⟨z1, z2⟩ := h2 hnil
        constructor
        · refine ⟨e, by simp, ?_⟩
          show _ = (if _ then _ else _)
          rw [z1]; split_ifs <;> omega
        · refine ⟨e, by simp, ?_⟩
          show _ = (if _ then _ else _)
          rw [z2]; split_ifs <;> omega
      · obtain ⟨⟨a, ha, ha'⟩, ⟨b, hb, hb'⟩⟩ := h3 hnil
        constructor
        · by_cases hgt : goLen (itoa e.count) > st.maxCount
          · exact ⟨e, by simp, by show _ = (if _ then _ else _); rw [if_pos hgt]⟩
          · exact ⟨a, by simp [ha], by show _ = (if _ then _ else _); rw [if_neg hgt]; exact ha'⟩
        · by_cases hgt : goLen e.name > st.maxName
          · exact ⟨e, by simp, by show _ = (if _ then _ else _); rw [if_pos hgt]⟩
          · exact ⟨b, by simp [hb], by show _ = (if _ then _ else _); rw [if_neg hgt]; exact hb'⟩

theorem widthInv_foldl (lines : List String) (st : ParseState) (h : WidthInv st) :
    WidthInv (lines.foldl parseStep st) := by
  induction lines generalizing st with
  | nil => exact h
  | cons l ls ih => exact ih _ (widthInv_parseStep st l h)

theorem widthInv_init : WidthInv ⟨[], 0, 0⟩ := by
  refine ⟨?_, fun _ => ⟨rfl, rfl⟩, fun h => absurd rfl h⟩
  intro e he
  simp at he

theorem parseLine_empty : parseLine "" = none := by decide

/-- In both branches `formatShortlogOutput` writes the rows of the parsed
entries with the widths of the parsing loop. -/
theorem formatShortlogOutput_eq (output : String) :
    formatShortlogOutput output =
      writeRows ((stringsSplit (trimSpace output) '\n').foldl parseStep ⟨[], 0, 0⟩).maxCount
        ((stringsSplit (trimSpace output) '\n').foldl parseStep ⟨[], 0, 0⟩).maxName 0
        (parsedEntries output) := by
  have hent := foldl_parseStep_entries (stringsSplit (trimSpace output) '\n') ⟨[], 0, 0⟩
  simp only [List.nil_append] at hent
  unfold formatShortlogOutput parsedEntries
  simp only
  split_ifs with h
  · rcases h with h | ⟨h1, h2⟩
    · have : stringsSplit (trimSpace output) '\n' = [] := List.length_eq_zero.1 h
      rw [this]
      simp [writeRows]
    · obtain ⟨a, ha⟩ := List.length_eq_one.1 h1
      rw [ha] at h2 ⊢
      have : a = "" := by simpa using h2
      subst this
      simp [parseLine_empty, writeRows]
  · rw [hent]


theorem splitOnP_no_sep (p : Char → Bool) (xs : List Char) :
    ∀ l ∈ xs.splitOnP p, ∀ x ∈ l, p x = false := by
  induction xs with
  | nil => intro l hl; simp at hl; subst hl; simp
  | cons a xs ih =>
    intro l hl
    rw [List.splitOnP_cons] at hl
    by_cases ha : p a = true
    · rw [if_pos ha] at hl
      rcases List.mem_cons.1 hl with rfl | hl
      · simp
      · exact ih l hl
    · rw [if_neg ha] at hl
      cases hs : xs.splitOnP p with
      | nil => rw [hs] at hl; simp at hl
      | cons h t =>
        rw [hs] at hl ih
        simp only [List.modifyHead_cons, List.mem_cons] at hl
        rcases hl with rfl | hl
        · intro x hx
          rcases List.mem_cons.1 hx with rfl | hx
          · simpa using ha
          · exact ih h (List.mem_cons_self _ _) x hx
        · exact ih l (List.mem_cons_of_mem _ hl)

theorem stringsSplit_no_sep (s : String) (sep : Char) :
    ∀ l ∈ stringsSplit s sep, sep ∉ l.data := by
  intro l hl
  unfold stringsSplit at hl
  rw [List.mem_map] at hl
  obtain ⟨cs, hcs, rfl⟩ := hl
  intro hmem
  have := splitOnP_no_sep (fun x => x == sep) s.data cs hcs sep hmem
  simp at this

theorem trimSpace_subset (s : String) : ∀ c ∈ (trimSpace s).data, c ∈ s.data := by
  intro c hc
  have h1 : c ∈ ((s.data.dropWhile isSpace).reverse.dropWhile isSpace) := by
    simpa [trimSpace] using hc
  have h2 := (List.dropWhile_sublist isSpace).subset h1
  have h3 : c ∈ s.data.dropWhile isSpace := by simpa using h2
  exact (List.dropWhile_sublist isSpace).subset h3

theorem findEmail_suffix (l : List Char) : findEmail l <:+ l := by
  induction l with
  | nil => simp [findEmail]
  | cons c t ih =>
    rw [findEmail]
    split_ifs
    · exact List.suffix_refl _
    · exact ih.trans (List.suffix_cons _ _)

theorem trimSuffix_subset (s suffix : String) : ∀ c ∈ (trimSuffix s suffix).data, c ∈ s.data := by
  intro c hc
  unfold trimSuffix at hc
  split_ifs at hc
  · exact List.mem_of_mem_take hc
  · exact hc

theorem splitN2_cases (s : String) (sep : Char) :
    (sep ∉ s.data ∧ splitN2 s sep = [s]) ∨
    (sep ∈ s.data ∧ ∃ after, s.data = s.data.takeWhile (fun c => c ≠ sep) ++ sep :: after ∧
      splitN2 s sep = [String.mk (s.data.takeWhile (fun c => c ≠ sep)), String.mk after]) := by
  unfold splitN2
  cases h : s.data.dropWhile (fun c => c ≠ sep) with
  | nil =>
    left
    refine ⟨?_, rfl⟩
    intro hmem
    have := List.dropWhile_eq_nil_iff.1 h sep hmem
    simp at this
  | cons a after =>
    right
    have hsplit := List.takeWhile_append_dropWhile (fun c => decide (c ≠ sep)) s.data
    have ha : a = sep := by
      have := List.head_dropWhile_not (fun c => decide (c ≠ sep)) s.data
        (by rw [h]; exact List.cons_ne_nil _ _)
      simp only [h, List.head_cons] at this
      simpa using this
    subst ha
    refine ⟨?_, after, ?_, rfl⟩
    · rw [← hsplit, h]
      simp
    · rw [h] at hsplit
      exact hsplit.symm

theorem parseLine_isSome_iff (line : String) :
    (parseLine line).isSome = true ↔ '\t' ∈ (trimSpace line).data := by
  unfold parseLine
  simp only
  by_cases he : trimSpace line = ""
  · rw [if_pos he, he]
    simp
  · rw [if_neg he]
    rcases splitN2_cases (trimSpace line) '\t' with ⟨h1, h2⟩ | ⟨h1, after, _, h2⟩
    · rw [h2]
      simp [h1]
    · rw [h2]
      simp [h1]

theorem parseLine_no_newline (line : String) (e : Entry) (hl : '\n' ∉ line.data)
    (h : parseLine line = some e) : '\n' ∉ e.name.data ∧ '\n' ∉ e.email.data := by
  unfold parseLine at h
  simp only at h
  by_cases he : trimSpace line = ""
  · rw [if_pos he] at h
    exact absurd h (by simp)
  · rw [if_neg he] at h
    have hline : '\n' ∉ (trimSpace line).data := fun hc => hl (trimSpace_subset _ _ hc)
    rcases splitN2_cases (trimSpace line) '\t' with ⟨h1, h2⟩ | ⟨h1, after, hdata, h2⟩
    · rw [h2] at h
      exact absurd h (by simp)
    · rw [h2] at h
      simp only [Option.some.injEq] at h
      subst h
      have hafter : '\n' ∉ after := by
        intro hc
        apply hline
        rw [hdata]
        exact List.mem_append_right _ (List.mem_cons_of_mem _ hc)
      have hrest : '\n' ∉ (trimSpace (String.mk after)).data :=
        fun hc => hafter (trimSpace_subset _ _ hc)
      constructor
      · intro hc
        exact hrest (trimSuffix_subset _ _ _ (trimSpace_subset _ _ hc))
      · intro hc
        exact hrest ((findEmail_suffix _).subset hc)


theorem padLeft_chars (w : Nat) (s : String) : ∀ c ∈ (padLeft w s).data, c = ' ' ∨ c ∈ s.data := by
  intro c hc
  rw [padLeft, String.data_append] at hc
  rcases List.mem_append.1 hc with h | h
  · exact Or.inl (List.eq_of_mem_replicate h)
  · exact Or.inr h

theorem padRight_chars (w : Nat) (s : String) :
    ∀ c ∈ (padRight w s).data, c = ' ' ∨ c ∈ s.data := by
  intro c hc
  rw [padRight, String.data_append] at hc
  rcases List.mem_append.1 hc with h | h
  · exact Or.inr h
  · exact Or.inl (List.eq_of_mem_replicate h)

theorem itoa_no_newline (n : Int) : '\n' ∉ (itoa n).data := by
  intro h
  rcases itoa_chars n _ h with h | h
  · exact absurd h (by decide)
  · exact absurd h (by decide)

/-- The text of a row before its final newline. -/
theorem formatRow_eq (i mc mn : Nat) (e : Entry) :
    formatRow i mc mn e = rowText i mc mn e ++ "\n" := by
  unfold formatRow rowText
  simp only [String.append_assoc]
  rfl

theorem formatRow_body_no_newline (i mc mn : Nat) (e : Entry)
    (hn : '\n' ∉ e.name.data) (hm : '\n' ∉ e.email.data) :
    '\n' ∉ (rowText i mc mn e).data := by
  have h1 : '\n' ∉ (padLeft 4 (Nat.repr (i + 1))).data := by
    intro h
    rcases padLeft_chars _ _ _ h with h | h
    · exact absurd h (by decide)
    · exact absurd (repr_chars _ _ h) (by decide)
  have h2 : '\n' ∉ (padLeft mc (itoa e.count)).data := by
    intro h
    rcases padLeft_chars _ _ _ h with h | h
    · exact absurd h (by decide)
    · exact itoa_no_newline _ h
  have h3 : '\n' ∉ (padRight mn e.name).data := by
    intro h
    rcases padRight_chars _ _ _ h with h | h
    · exact absurd h (by decide)
    · exact hn h
  have c1 : '\n' ∉ ("  " : String).data := by decide
  have c2 : '\n' ∉ colorGreen.data := by decide
  have c3 : '\n' ∉ colorReset.data := by decide
  have c4 : '\n' ∉ colorWhite.data := by decide
  have c5 : '\n' ∉ colorCyan.data := by decide
  simp only [rowText, String.data_append, List.mem_append, not_or]
  exact ⟨h1, c1, c2, h2, c3, c1, c4, h3, c3, c1, c5, hm, c3⟩

theorem writeRows_rows (mc mn : Nat) (es : List Entry) (i : Nat)
    (hes : ∀ e ∈ es, '\n' ∉ e.name.data ∧ '\n' ∉ e.email.data) :
    ∃ rows : List String, rows.length = es.length ∧
      writeRows mc mn i es = String.join (rows.map (fun r => r ++ "\n")) ∧
      (∀ r ∈ rows, '\n' ∉ r.data) ∧
      ∀ k (hk : k < rows.length), ∃ tail,
        rows.get ⟨k, hk⟩ = padLeft 4 (Nat.repr (i + k + 1)) ++ tail := by
  induction es generalizing i with
  | nil => exact ⟨[], rfl, by simp [writeRows, String.join], by simp, by simp⟩
  | cons e es ih =>
    obtain ⟨rows, hlen, hjoin, hnl, hrank⟩ :=
      ih (i + 1) (fun x hx => hes x (List.mem_cons_of_mem _ hx))
    obtain ⟨hn, hm⟩ := hes e (List.mem_cons_self _ _)
    refine ⟨rowText i mc mn e :: rows, by simp [hlen], ?_, ?_, ?_⟩
    · rw [writeRows, formatRow_eq, hjoin, List.map_cons, join_cons_eq]
    · intro r hr
      rcases List.mem_cons.1 hr with rfl | hr
      · exact formatRow_body_no_newline i mc mn e hn hm
      · exact hnl r hr
    · intro k hk
      cases k with
      | zero => exact ⟨_, rfl⟩
      | succ k =>
        have hk' : k < rows.length := by simpa using hk
        obtain ⟨tail, ht⟩ := hrank k hk'
        refine ⟨tail, ?_⟩
        have : i + (k + 1) + 1 = i + 1 + k + 1 := by omega
        rw [this, ← ht]
        rfl

theorem join_lines_eq (rows : List String) :
    String.join (rows.map (fun r => r ++ "\n")) = stringsJoin (rows ++ [""]) '\n' := by
  induction rows with
  | nil => decide
  | cons r rows ih =>
    rw [List.map_cons, join_cons_eq, ih]
    cases rows with
    | nil =>
      apply String.ext
      simp [stringsJoin, String.data_append, List.intercalate, List.intersperse, List.flatten]
    | cons r2 rows =>
      show r ++ "\n" ++ stringsJoin (r2 :: (rows ++ [""])) '\n'
        = stringsJoin (r :: r2 :: (rows ++ [""])) '\n'
      rw [stringsJoin_cons_cons]
      rfl

theorem dropWhile_all (p : Char → Bool) (l : List Char) (h : ∀ c ∈ l, p c = true) :
    l.dropWhile p = [] := List.dropWhile_eq_nil_iff.2 h

theorem trimSpace_of_spaces (s : String) (h : ∀ c ∈ s.data, isSpace c = true) :
    trimSpace s = "" := by
  unfold trimSpace
  rw [dropWhile_all isSpace _ h]
  rfl

theorem filterMap_length_eq (lines : List String) :
    (lines.filterMap parseLine).length =
      (lines.filter (fun l => decide ('\t' ∈ (trimSpace l).data))).length := by
  induction lines with
  | nil => rfl
  | cons l ls ih =>
    have hiff := parseLine_isSome_iff l
    rw [List.filterMap_cons, List.filter_cons]
    cases hp : parseLine l with
    | none =>
      rw [hp] at hiff
      have : ¬ '\t' ∈ (trimSpace l).data := fun h => by simpa using hiff.2 h
      simp [this, ih]
    | some e =>
      rw [hp] at hiff
      have : '\t' ∈ (trimSpace l).data := hiff.1 rfl
      simp [this, ih]

theorem parsedEntries_no_newline (input : String) :
    ∀ e ∈ parsedEntries input, '\n' ∉ e.name.data ∧ '\n' ∉ e.email.data := by
  intro e he
  unfold parsedEntries at he
  rw [List.mem_filterMap] at he
  obtain ⟨l, hl, hp⟩ := he
  exact parseLine_no_newline l e (stringsSplit_no_sep _ _ l hl) hp


theorem isDigit_ascii (c : Char) (h : c.isDigit = true) : c.toNat < 128 := by
  simp only [Char.isDigit, Bool.and_eq_true, decide_eq_true_eq] at h
  have h2 : c.val.toNat ≤ 57 := h.2
  have : c.val.toNat = c.toNat := rfl
  omega

theorem goLen_itoa (n : Int) : goLen (itoa n) = (itoa n).length := by
  apply goLen_of_ascii
  intro c hc
  rcases itoa_chars n c hc with h | h
  · exact isDigit_ascii c h
  · subst h; decide

theorem padLeft_length (w : Nat) (s : String) (h : s.length ≤ w) : (padLeft w s).length = w := by
  rw [padLeft, String.length_append]
  have : (String.mk (List.replicate (w - s.length) ' ')).length = w - s.length :=
    List.length_replicate _ _
  omega

theorem padRight_length (w : Nat) (s : String) (h : s.length ≤ w) :
    (padRight w s).length = w := by
  rw [padRight, String.length_append]
  have : (String.mk (List.replicate (w - s.length) ' ')).length = w - s.length :=
    List.length_replicate _ _
  omega


/-! ## Lemmas on the parse of one line -/

theorem dropWhile_stop (p : Char → Bool) (l r : List Char) (a : Char)
    (hl : ∀ x ∈ l, p x = true) (ha : p a = false) :
    (l ++ a :: r).dropWhile p = a :: r := by
  rw [List.dropWhile_append_of_pos hl, List.dropWhile_cons, ha]
  rfl

theorem takeWhile_stop (p : Char → Bool) (l r : List Char) (a : Char)
    (hl : ∀ x ∈ l, p x = true) (ha : p a = false) :
    (l ++ a :: r).takeWhile p = l := by
  rw [List.takeWhile_append_of_pos hl, List.takeWhile_cons, ha]
  simp

/-- Trimming removes white space around a text with no outer white space. -/
theorem trimSpace_core (ws1 X ws2 : List Char) (h1 : ∀ c ∈ ws1, isSpace c = true)
    (h2 : ∀ c ∈ ws2, isSpace c = true) (hX : NoOuterSpace X) :
    trimSpace (String.mk (ws1 ++ X ++ ws2)) = String.mk X := by
  unfold trimSpace
  congr 1
  show (((ws1 ++ X ++ ws2).dropWhile isSpace).reverse.dropWhile isSpace).reverse = X
  cases X with
  | nil =>
    have hall : ∀ c ∈ ws1 ++ [] ++ ws2, isSpace c = true := by
      intro c hc
      simp only [List.append_nil, List.mem_append] at hc
      rcases hc with hc | hc
      · exact h1 c hc
      · exact h2 c hc
    rw [List.dropWhile_eq_nil_iff.2 hall]
    rfl
  | cons x X' =>
    have hx : isSpace x = false := hX.1 x rfl
    rw [List.append_assoc, List.cons_append, dropWhile_stop isSpace ws1 _ x h1 hx]
    rcases List.eq_nil_or_concat (x :: X') with h | ⟨init, y, h⟩
    · exact absurd h (List.cons_ne_nil _ _)
    · rw [List.concat_eq_append] at h
      have hy : isSpace y = false := by
        apply hX.2 y
        rw [h]
        exact List.getLast?_concat _
      rw [← List.cons_append, h]
      have : (init ++ [y] ++ ws2).reverse = ws2.reverse ++ y :: init.reverse := by simp
      rw [this, dropWhile_stop isSpace ws2.reverse _ y
        (fun c hc => h2 c (List.mem_reverse.1 hc)) hy]
      simp

theorem trimSpace_self (X : List Char) (hX : NoOuterSpace X) :
    trimSpace (String.mk X) = String.mk X := by
  have := trimSpace_core [] X [] (by simp) (by simp) hX
  simpa using this

theorem isSpace_false_of_range (c : Char) (h1 : 33 ≤ c.toNat) (h2 : c.toNat ≤ 126) :
    isSpace c = false := by
  unfold isSpace
  simp only [List.mem_cons, List.mem_singleton, List.not_mem_nil, or_false, Bool.or_eq_false_iff,
    decide_eq_false_iff_not, Bool.and_eq_false_imp, decide_eq_true_eq, not_le, not_or]
  refine ⟨⟨?_, ?_, ?_, ?_, ?_, ?_, ?_, ?_, ?_, ?_, ?_, ?_, ?_, ?_⟩, ?_⟩ <;> omega

theorem isDigit_range (c : Char) (h : c.isDigit = true) : 48 ≤ c.toNat ∧ c.toNat ≤ 57 := by
  simp only [Char.isDigit, Bool.and_eq_true, decide_eq_true_eq] at h
  have h1 : 48 ≤ c.val.toNat := h.1
  have h2 : c.val.toNat ≤ 57 := h.2
  have : c.val.toNat = c.toNat := rfl
  omega

theorem isSpace_digit (c : Char) (h : c.isDigit = true) : isSpace c = false := by
  have := isDigit_range c h
  exact isSpace_false_of_range c (by omega) (by omega)

theorem emailMatchAt_iff (l : List Char) : emailMatchAt l = true ↔ IsEmail l := by
  constructor
  · intro h
    cases l with
    | nil => simp [emailMatchAt] at h
    | cons c t =>
      simp only [emailMatchAt, Bool.and_eq_true, decide_eq_true_eq] at h
      obtain ⟨⟨⟨hc, hlen⟩, hlast⟩, hno⟩ := h
      subst hc
      rcases List.eq_nil_or_concat t with ht | ⟨body, y, ht⟩
      · subst ht; simp at hlen
      · rw [List.concat_eq_append] at ht
        subst ht
        rw [List.getLast?_concat] at hlast
        have hy : y = '>' := Option.some.inj hlast
        subst hy
        rw [List.dropLast_concat] at hno
        refine ⟨body, ?_, hno, rfl⟩
        intro hb
        subst hb
        simp at hlen
  · rintro ⟨body, hne, hno, rfl⟩
    have hlen : 2 ≤ (body ++ ['>']).length := by
      cases body with
      | nil => exact absurd rfl hne
      | cons b bs => simp
    have h3 : (body ++ ['>']).getLast? = some '>' := List.getLast?_concat _
    have h4 : '>' ∉ (body ++ ['>']).dropLast := by rw [List.dropLast_concat]; exact hno
    simp only [emailMatchAt, hlen, h3, h4, decide_True, not_false_eq_true, Bool.and_self]

theorem findEmail_of_isEmail (l : List Char) (h : IsEmail l) : findEmail l = l := by
  obtain ⟨body, _, _, hl⟩ := id h
  subst hl
  rw [findEmail, if_pos ((emailMatchAt_iff _).2 h)]

/-- The search skips a text in which every `<` is followed by a `>`. -/
theorem findEmail_skip (pre tail : List Char)
    (hpre : ∀ a b, pre = a ++ '<' :: b → '>' ∈ b) (c : Char) (hc : c ≠ '<') :
    findEmail (pre ++ c :: tail) = findEmail tail := by
  induction pre with
  | nil =>
    rw [List.nil_append, findEmail]
    have : emailMatchAt (c :: tail) = false := by
      simp only [emailMatchAt, hc, decide_False, Bool.false_and]
    rw [this]
    rfl
  | cons x pre ih =>
    have hpre' : ∀ a b, pre = a ++ '<' :: b → '>' ∈ b := by
      intro a b hab
      exact hpre (x :: a) b (by rw [hab]; rfl)
    rw [List.cons_append, findEmail]
    have : emailMatchAt (x :: (pre ++ c :: tail)) = false := by
      by_cases hx : x = '<'
      · subst hx
        have hin : '>' ∈ pre := hpre [] pre rfl
        have hdrop : '>' ∈ (pre ++ c :: tail).dropLast := by
          rw [List.dropLast_append_of_ne_nil _ (List.cons_ne_nil _ _)]
          exact List.mem_append_left _ hin
        simp only [emailMatchAt, hdrop, not_true_eq_false, decide_False, Bool.and_false]
      · simp only [emailMatchAt, hx, decide_False, Bool.false_and]
    rw [this]
    exact ih hpre'

theorem findEmail_none (l : List Char) (h : ∀ p s, l = p ++ s → ¬ IsEmail s) :
    findEmail l = [] := by
  induction l with
  | nil => rfl
  | cons c t ih =>
    rw [findEmail]
    have h1 : emailMatchAt (c :: t) = false := by
      cases hm : emailMatchAt (c :: t) with
      | false => rfl
      | true => exact absurd ((emailMatchAt_iff _).1 hm) (h [] _ rfl)
    rw [h1]
    exact ih (fun p s hps => h (c :: p) s (by rw [hps]; rfl))


theorem noOuterSpace_digits (D : List Char) (hD : ∀ c ∈ D, c.isDigit = true) : NoOuterSpace D := by
  constructor
  · intro c hc
    exact isSpace_digit c (hD c (List.mem_of_mem_head? hc))
  · intro c hc
    exact isSpace_digit c (hD c (List.mem_of_mem_getLast? hc))

theorem atoi_digits (D : List Char) (hne : D ≠ []) (hD : ∀ c ∈ D, c.isDigit = true)
    (hb : digitsValue D < 2 ^ 63) : atoi (String.mk D) = (digitsValue D : Int) := by
  cases D with
  | nil => exact absurd rfl hne
  | cons c t =>
    have hc : c.isDigit = true := hD c (List.mem_cons_self _ _)
    have h1 : c ≠ '-' := by rintro rfl; exact absurd hc (by decide)
    have h2 : c ≠ '+' := by rintro rfl; exact absurd hc (by decide)
    have hall : (c :: t).all Char.isDigit = true := List.all_eq_true.2 hD
    have hb' : ¬ digitsValue (c :: t) ≥ 2 ^ 63 := by omega
    simp only [atoi, h1, h2, or_self, if_false, decide_False, hall, not_true_eq_false,
      List.cons_ne_nil, Bool.false_eq_true, hb']

/-- The parse of a line `<spaces><digits> TAB <spaces><text><spaces>`. -/
theorem parseLine_general (ws D w1 T w2 : List Char)
    (hws : ∀ c ∈ ws, isSpace c = true) (hDne : D ≠ []) (hD : ∀ c ∈ D, c.isDigit = true)
    (hb : digitsValue D < 2 ^ 63) (hw1 : ∀ c ∈ w1, isSpace c = true)
    (hw2 : ∀ c ∈ w2, isSpace c = true) (hTne : T ≠ []) (hT : NoOuterSpace T) :
    parseLine (String.mk (ws ++ (D ++ '\t' :: (w1 ++ T ++ w2)))) =
      some ⟨(digitsValue D : Int),
        trimSpace (trimSuffix (String.mk T) (String.mk (findEmail T))),
        String.mk (findEmail T)⟩ := by
  have hX : NoOuterSpace (D ++ '\t' :: (w1 ++ T)) := by
    constructor
    · intro c hc
      cases D with
      | nil => exact absurd rfl hDne
      | cons d D' =>
        have : c = d := by simpa using hc.symm
        subst this
        exact isSpace_digit c (hD c (List.mem_cons_self _ _))
    · intro c hc
      apply hT.2 c
      have h1 : (D ++ '\t' :: (w1 ++ T)) = (D ++ '\t' :: w1) ++ T := by simp
      rw [h1, List.getLast?_append_of_ne_nil _ hTne] at hc
      exact hc
  have hline : ws ++ (D ++ '\t' :: (w1 ++ T ++ w2)) = ws ++ (D ++ '\t' :: (w1 ++ T)) ++ w2 := by
    simp
  have htrim : trimSpace (String.mk (ws ++ (D ++ '\t' :: (w1 ++ T ++ w2))))
      = String.mk (D ++ '\t' :: (w1 ++ T)) := by
    rw [hline]
    exact trimSpace_core ws _ w2 hws hw2 hX
  have hne : String.mk (D ++ '\t' :: (w1 ++ T)) ≠ "" := by
    intro h
    have := congrArg String.data h
    simp at this
  have hnotab : ∀ x ∈ D, (fun c => decide (c ≠ '\t')) x = true := by
    intro x hx
    have : x ≠ '\t' := by
      rintro rfl
      exact absurd (hD _ hx) (by decide)
    simpa using this
  have hsplit : splitN2 (String.mk (D ++ '\t' :: (w1 ++ T))) '\t'
      = [String.mk D, String.mk (w1 ++ T)] := by
    unfold splitN2
    have hd : (D ++ '\t' :: (w1 ++ T)).dropWhile (fun c => decide (c ≠ '\t'))
        = '\t' :: (w1 ++ T) := dropWhile_stop _ D _ '\t' hnotab (by simp)
    have ht : (D ++ '\t' :: (w1 ++ T)).takeWhile (fun c => decide (c ≠ '\t')) = D :=
      takeWhile_stop _ D _ '\t' hnotab (by simp)
    simp only [hd, ht]
  have hcount : atoi (trimSpace (String.mk D)) = (digitsValue D : Int) := by
    rw [trimSpace_self D (noOuterSpace_digits D hD), atoi_digits D hDne hD hb]
  have hrest : trimSpace (String.mk (w1 ++ T)) = String.mk T := by
    have := trimSpace_core w1 T [] hw1 (by simp) hT
    simpa using this
  unfold parseLine
  simp only [htrim, hne, if_false, hsplit, hcount, hrest]


theorem noOuterSpace_trimSpace (s : String) : NoOuterSpace (trimSpace s).data := by
  have hB : (trimSpace s).data
      = ((s.data.dropWhile isSpace).reverse.dropWhile isSpace).reverse := rfl
  have hlast : ∀ c, (trimSpace s).data.getLast? = some c → isSpace c = false := by
    intro c hc
    rw [hB, List.getLast?_reverse] at hc
    have hne : (s.data.dropWhile isSpace).reverse.dropWhile isSpace ≠ [] := by
      intro h
      rw [h] at hc
      simp at hc
    have := List.head_dropWhile_not isSpace _ hne
    rw [List.head?_eq_head hne] at hc
    have hc' := Option.some.inj hc
    rw [hc'] at this
    simpa using this
  refine ⟨?_, hlast⟩
  intro c hc
  have hne : (trimSpace s).data ≠ [] := by
    intro h
    rw [h] at hc
    simp at hc
  have hpre : (trimSpace s).data <+: s.data.dropWhile isSpace := by
    rw [hB]
    have h : (s.data.dropWhile isSpace).reverse.dropWhile isSpace
        <:+ (s.data.dropWhile isSpace).reverse := List.dropWhile_suffix isSpace
    have h2 := List.reverse_prefix.2 h
    rwa [List.reverse_reverse] at h2
  obtain ⟨t, ht⟩ := hpre
  have hAne : s.data.dropWhile isSpace ≠ [] := by
    intro h
    rw [h] at ht
    exact hne (List.append_eq_nil.1 ht).1
  have hhead := List.head_dropWhile_not isSpace _ hAne
  have : (s.data.dropWhile isSpace).head? = some c := by
    rw [← ht, List.head?_append_of_ne_nil _ hne]
    exact hc
  rw [List.head?_eq_head hAne] at this
  rw [Option.some.inj this] at hhead
  simpa using hhead

theorem trimSpace_idem (s : String) : trimSpace (trimSpace s) = trimSpace s :=
  trimSpace_self _ (noOuterSpace_trimSpace s)

theorem parseLine_trimSpace (s : String) : parseLine (trimSpace s) = parseLine s := by
  unfold parseLine
  rw [trimSpace_idem]

theorem stringsSplit_single (s : String) (sep : Char) (h : sep ∉ s.data) :
    stringsSplit s sep = [s] := by
  unfold stringsSplit List.splitOn
  rw [List.splitOnP_eq_single]
  · rfl
  · intro x hx hsep
    have : x = sep := by simpa using hsep
    exact h (this ▸ hx)

/-- The output for an input of one line that parses to the entry `e`. -/
theorem formatShortlogOutput_single (line : String) (e : Entry) (hnl : '\n' ∉ line.data)
    (hp : parseLine line = some e) :
    formatShortlogOutput line = rowText 0 (goLen (itoa e.count)) (goLen e.name) e ++ "\n" := by
  have hnl' : '\n' ∉ (trimSpace line).data := fun h => hnl (trimSpace_subset _ _ h)
  have hp' : parseLine (trimSpace line) = some e := by rw [parseLine_trimSpace, hp]
  have hmax : ∀ a : Nat, (if a > 0 then a else 0) = a := by
    intro a
    split_ifs <;> omega
  rw [formatShortlogOutput_eq, parsedEntries, stringsSplit_single _ _ hnl']
  simp only [List.foldl_cons, List.foldl_nil, parseStep, hp', List.filterMap_cons,
    List.filterMap_nil, List.nil_append, hmax, writeRows, formatRow_eq, String.append_empty]


theorem noOuterSpace_of (l : List Char) (x y : Char) (h1 : l.head? = some x)
    (h2 : l.getLast? = some y) (hx : isSpace x = false) (hy : isSpace y = false) :
    NoOuterSpace l := by
  constructor
  · intro c hc
    rw [h1] at hc
    exact Option.some.inj hc ▸ hx
  · intro c hc
    rw [h2] at hc
    exact Option.some.inj hc ▸ hy

theorem bracket_closed_of_none (l : List Char) (h : '<' ∉ l) :
    ∀ a b, l = a ++ '<' :: b → '>' ∈ b := by
  intro a b hab
  exact absurd (by rw [hab]; simp) h

theorem no_email_of_none (l : List Char) (h : '<' ∉ l) :
    ∀ p s, l = p ++ s → ¬ IsEmail s := by
  rintro p s hps ⟨body, _, _, hs⟩
  exact h (by rw [hps, hs]; simp)


/-! ## The navigation step (claims C1 to C6) -/

/-- C1. Apply-filter with a non-empty query: when the selector output has query
line `q ≠ ""` and key line `ctrl-o` or `enter`, `launchFzf` returns the
apply-filter action with query `q`, and the loop goes on with the current
filter pushed on the stack and `q` as the new current filter. -/
theorem apply_filter_nonempty_query (S : List String) (c q key out : String)
    (tail sel : List String)
    (hlines : stringsSplit out '\n' = q :: key :: tail)
    (hkey : key = "ctrl-o" ∨ key = "enter") (hq : q ≠ "") :
    (launchFzf out).action = "ctrl-o" ∧ (launchFzf out).query = q ∧
    switchAction ⟨S, c⟩ ⟨"ctrl-o", q, sel⟩ = .continue ⟨S ++ [c], q⟩ ∧
    loopBody ⟨S, c⟩ out = .continue ⟨S ++ [c], q⟩ ∧
    (∀ later, runInteractiveFrom ⟨S, c⟩ (out :: later)
      = runInteractiveFrom ⟨S ++ [c], q⟩ later) := by
  have hl := launchFzf_of_lines out q key tail hlines
  have hbody : loopBody ⟨S, c⟩ out = .continue ⟨S ++ [c], q⟩ := by
    rcases hkey with rfl | rfl
    · simp [loopBody, hl, switchAction, hq]
    · simp [loopBody, hl, switchAction, hq]
  refine ⟨?_, ?_, ?_, hbody, fun later => runInteractiveFrom_continue _ _ _ _ hbody⟩
  · rcases hkey with rfl | rfl <;> simp [hl]
  · rcases hkey with rfl | rfl <;> simp [hl]
  · simp [switchAction, hq]

theorem apply_filter_nonempty_query_witness :
    stringsSplit "2024-01-01\nenter\nrow\n" '\n' = ["2024-01-01", "enter", "row", ""] ∧
    loopBody ⟨[""], "1 year ago"⟩ "2024-01-01\nenter\nrow\n"
      = .continue ⟨["", "1 year ago"], "2024-01-01"⟩ :=
  ⟨by decide,
   (apply_filter_nonempty_query [""] "1 year ago" "2024-01-01" "enter" "2024-01-01\nenter\nrow\n"
      ["row", ""] [] (by decide) (Or.inr rfl) (by decide)).2.2.2.1⟩

/-- C2 (the code at the failing input). On `enter` with an empty query
`launchFzf` returns the apply-filter action with the empty query, and the loop
goes on with stack and current filter unchanged: the filter `2024-01-01` is
neither pushed nor replaced by the full history. -/
theorem enter_empty_query_keeps_state :
    launchFzf "\nenter\n" = ⟨"ctrl-o", "", []⟩ ∧
    loopBody ⟨[""], "2024-01-01"⟩ "\nenter\n" = .continue ⟨[""], "2024-01-01"⟩ ∧
    loopBody ⟨[""], "2024-01-01"⟩ "\nenter\n" ≠ .continue ⟨["", "2024-01-01"], ""⟩ := by
  decide

/-- C3. Navigate-back: when the key line is `ctrl-c` or `esc`, `launchFzf`
returns the back action; with a stack `S' ++ [d]` the loop goes on with stack
`S'` and current filter `d`; with an empty stack the engine returns with
nothing written, whatever lines follow the key line. -/
theorem navigate_back (S' : List String) (c d q key out : String) (tail sel : List String)
    (hlines : stringsSplit out '\n' = q :: key :: tail)
    (hkey : key = "ctrl-c" ∨ key = "esc") :
    (launchFzf out).action = "back" ∧
    switchAction ⟨S' ++ [d], c⟩ ⟨"back", q, sel⟩ = .continue ⟨S', d⟩ ∧
    switchAction ⟨[], c⟩ ⟨"back", q, sel⟩ = .exit "" ∧
    loopBody ⟨S' ++ [d], c⟩ out = .continue ⟨S', d⟩ ∧
    loopBody ⟨[], c⟩ out = .exit "" ∧
    (∀ later, runInteractiveFrom ⟨[], c⟩ (out :: later) = some "") := by
  have hl := launchFzf_of_lines out q key tail hlines
  obtain ⟨h1, h2, h3⟩ := pop_snoc S' d
  have hexit : loopBody ⟨[], c⟩ out = .exit "" := by
    rcases hkey with rfl | rfl <;> simp [loopBody, hl, switchAction]
  refine ⟨?_, ?_, ?_, ?_, hexit, fun later => runInteractiveFrom_exit _ _ _ _ hexit⟩
  · rcases hkey with rfl | rfl <;> simp [hl]
  · simp [switchAction, h1, h2]
  · simp [switchAction]
  · rcases hkey with rfl | rfl <;> simp [loopBody, hl, switchAction, h1, h2]

theorem navigate_back_witness :
    stringsSplit "abc\nesc\nrow 1\nrow 2\n" '\n' = ["abc", "esc", "row 1", "row 2", ""] ∧
    loopBody ⟨["", "1 year ago"], "2 weeks ago"⟩ "abc\nesc\nrow 1\nrow 2\n"
      = .continue ⟨[""], "1 year ago"⟩ ∧
    runInteractiveFrom ⟨[], "2 weeks ago"⟩ ["abc\nesc\nrow 1\nrow 2\n"] = some "" :=
  have h := navigate_back [""] "2 weeks ago" "1 year ago" "abc" "esc" "abc\nesc\nrow 1\nrow 2\n"
    ["row 1", "row 2", ""] [] (by decide) (Or.inr rfl)
  ⟨by decide, h.2.2.2.1, h.2.2.2.2.2 []⟩

/-- C4. Quit-with-output: when the key line is `ctrl-q`, `launchFzf` returns the
quit action; with a stack `S' ++ [d]` the loop goes on with stack `S'` and
current filter `d` (nothing is written); with an empty stack the engine writes
the selected rows in order, each followed by a newline, and returns. -/
theorem quit_with_output (S' : List String) (c d q out : String) (tail sel : List String)
    (hlines : stringsSplit out '\n' = q :: "ctrl-q" :: tail) :
    (launchFzf out).action = "quit" ∧
    switchAction ⟨S' ++ [d], c⟩ ⟨"quit", q, sel⟩ = .continue ⟨S', d⟩ ∧
    switchAction ⟨[], c⟩ ⟨"quit", q, sel⟩ = .exit (String.join (sel.map (fun row => row ++ "\n"))) ∧
    loopBody ⟨S' ++ [d], c⟩ out = .continue ⟨S', d⟩ ∧
    loopBody ⟨[], c⟩ out
      = .exit (String.join ((launchFzf out).selections.map (fun row => row ++ "\n"))) ∧
    (∀ later, runInteractiveFrom ⟨[], c⟩ (out :: later)
      = some (String.join ((launchFzf out).selections.map (fun row => row ++ "\n")))) := by
  have hl := launchFzf_of_lines out q "ctrl-q" tail hlines
  obtain ⟨h1, h2, h3⟩ := pop_snoc S' d
  have hexit : loopBody ⟨[], c⟩ out
      = .exit (String.join ((launchFzf out).selections.map (fun row => row ++ "\n"))) := by
    simp [loopBody, hl, switchAction, printSelections_eq_join]
  refine ⟨?_, ?_, ?_, ?_, hexit, fun later => runInteractiveFrom_exit _ _ _ _ hexit⟩
  · simp [hl]
  · simp [switchAction, h1, h2]
  · simp [switchAction, printSelections_eq_join]
  · simp [loopBody, hl, switchAction, h1, h2]

theorem quit_with_output_witness :
    stringsSplit "abc\nctrl-q\nrow 1\nrow 2\n" '\n' = ["abc", "ctrl-q", "row 1", "row 2", ""] ∧
    loopBody ⟨["", "1 year ago"], "2 weeks ago"⟩ "abc\nctrl-q\nrow 1\nrow 2\n"
      = .continue ⟨[""], "1 year ago"⟩ ∧
    switchAction ⟨[], "2 weeks ago"⟩ ⟨"quit", "abc", ["row 1", "row 2"]⟩
      = .exit "row 1\nrow 2\n" :=
  have h := quit_with_output [""] "2 weeks ago" "1 year ago" "abc" "abc\nctrl-q\nrow 1\nrow 2\n"
    ["row 1", "row 2", ""] ["row 1", "row 2"] (by decide)
  ⟨by decide, h.2.2.2.1, h.2.2.1⟩

/-- C5 (counterexample). The empty selector output has fewer than two lines,
yet with the non-empty stack `["2024-01-01"]` the engine does not terminate:
it pops the stack and the loop goes on. -/
theorem short_output_nonempty_stack :
    (stringsSplit "" '\n').length < 2 ∧
    loopBody ⟨["2024-01-01"], "1 week ago"⟩ "" = .continue ⟨[], "2024-01-01"⟩ ∧
    loopBody ⟨["2024-01-01"], "1 week ago"⟩ "" ≠ .exit "" := by
  decide

/-- C5 (amended). When the selector output has fewer than two lines,
`launchFzf` returns the back action with empty query and no selection, and the
engine does what navigate-back does: with an empty stack it returns with
nothing written, with a stack `S' ++ [d]` the loop goes on with stack `S'` and
current filter `d`. -/
theorem short_output_is_back (S' : List String) (c d out : String)
    (h : (stringsSplit out '\n').length < 2) :
    launchFzf out = ⟨"back", "", []⟩ ∧
    loopBody ⟨[], c⟩ out = .exit "" ∧
    (∀ later, runInteractiveFrom ⟨[], c⟩ (out :: later) = some "") ∧
    loopBody ⟨S' ++ [d], c⟩ out = .continue ⟨S', d⟩ := by
  have hl := launchFzf_of_short out h
  obtain ⟨h1, h2, h3⟩ := pop_snoc S' d
  have hexit : loopBody ⟨[], c⟩ out = .exit "" := by
    simp [loopBody, hl, switchAction]
  refine ⟨hl, hexit, fun later => runInteractiveFrom_exit _ _ _ _ hexit, ?_⟩
  simp [loopBody, hl, switchAction, h1, h2]

theorem short_output_is_back_witness :
    (stringsSplit "" '\n').length < 2 ∧
    launchFzf "" = ⟨"back", "", []⟩ ∧
    loopBody ⟨[], "1 week ago"⟩ "" = .exit "" ∧
    runInteractiveFrom ⟨[], "1 week ago"⟩ [""] = some "" ∧
    loopBody ⟨["", "2024-01-01"], "1 week ago"⟩ "" = .continue ⟨[""], "2024-01-01"⟩ :=
  have h := short_output_is_back [""] "1 week ago" "2024-01-01" "" (by decide)
  ⟨by decide, h.1, h.2.1, h.2.2.1 [], h.2.2.2⟩

/-- C6. Selector output parsing: for an output with at least two lines,
`launchFzf` returns line 0 as query and the non-empty lines among lines 2..
(in order) as selections; the action depends on line 1 alone: `ctrl-o` and
`enter` give `ctrl-o`, `ctrl-c` and `esc` give `back`, `ctrl-q` gives `quit`,
every other key gives `accept`, on which the engine returns from every state
with nothing written. -/
theorem launchFzf_parse (out q key : String) (tail : List String)
    (hlines : stringsSplit out '\n' = q :: key :: tail) :
    (launchFzf out).query = q ∧
    (launchFzf out).selections = tail.filter (fun line => line ≠ "") ∧
    (key = "ctrl-o" ∨ key = "enter" → (launchFzf out).action = "ctrl-o") ∧
    (key = "ctrl-c" ∨ key = "esc" → (launchFzf out).action = "back") ∧
    (key = "ctrl-q" → (launchFzf out).action = "quit") ∧
    (key ∉ ["ctrl-o", "enter", "ctrl-c", "esc", "ctrl-q"] →
      (launchFzf out).action = "accept" ∧
      ∀ S c later, runInteractiveFrom ⟨S, c⟩ (out :: later) = some "") := by
  have hl := launchFzf_of_lines out q key tail hlines
  refine ⟨?_, ?_, ?_, ?_, ?_, ?_⟩
  · rw [hl]; split_ifs <;> rfl
  · rw [hl]; split_ifs <;> rfl
  · rintro (rfl | rfl) <;> simp [hl]
  · rintro (rfl | rfl) <;> simp [hl]
  · rintro rfl; simp [hl]
  · intro hk
    simp only [List.mem_cons, List.mem_singleton, List.not_mem_nil, or_false, not_or] at hk
    obtain ⟨k1, k2, k3, k4, k5⟩ := hk
    have : launchFzf out = ⟨"accept", q, tail.filter (fun l => l ≠ "")⟩ := by
      rw [hl]; simp [k1, k2, k3, k4, k5]
    refine ⟨by rw [this], ?_⟩
    intro S c later
    apply runInteractiveFrom_exit
    simp [loopBody, this, switchAction]

theorem launchFzf_parse_witness :
    launchFzf "jo\n\n   1  12  John <j@x.org>\n\n   2   7  Ann <a@x.org>\n"
      = ⟨"accept", "jo", ["   1  12  John <j@x.org>", "   2   7  Ann <a@x.org>"]⟩ ∧
    runInteractiveFrom ⟨["", "2024"], "1 week ago"⟩
      ["jo\n\n   1  12  John <j@x.org>\n\n   2   7  Ann <a@x.org>\n"] = some "" ∧
    (launchFzf "jo\nenter\nrow\n").action = "ctrl-o" ∧
    (launchFzf "jo\nesc\nrow\n").action = "back" ∧
    (launchFzf "jo\nctrl-q\nrow\n").action = "quit" :=
  have h := launchFzf_parse "jo\n\n   1  12  John <j@x.org>\n\n   2   7  Ann <a@x.org>\n" "jo" ""
    ["   1  12  John <j@x.org>", "", "   2   7  Ann <a@x.org>", ""] (by decide)
  ⟨by decide, (h.2.2.2.2.2 (by decide)).2 ["", "2024"] "1 week ago" [],
   (launchFzf_parse "jo\nenter\nrow\n" "jo" "enter" ["row", ""] (by decide)).2.2.1 (Or.inr rfl),
   (launchFzf_parse "jo\nesc\nrow\n" "jo" "esc" ["row", ""] (by decide)).2.2.2.1 (Or.inr rfl),
   (launchFzf_parse "jo\nctrl-q\nrow\n" "jo" "ctrl-q" ["row", ""] (by decide)).2.2.2.2.1 rfl⟩


/-! ## The resolver and the environment handoff (claims C7 to C10) -/

/-- C7 (the code at the failing input). With `GH_SHORTLOG_ARGS` exported from
the pass-through list `["--since=1 week ago", "main"]`, the environment part
of `parseArgs` recovers that list, but `parseArgs` on the empty token list
ends with `gitArgs = remaining`, the empty list: the subcommand gets no
pass-through argument. -/
theorem handoff_args_overwritten :
    exportedArgs ⟨["--since=1 week ago", "main"], "/tmp/repo", false, "/tmp/date", "", ""⟩
      = "--since=1 week ago\x1fmain" ∧
    (loadEnv (fun v => if v = "GH_SHORTLOG_ARGS" then "--since=1 week ago\x1fmain" else "")
      ⟨[], "", false, "", "", ""⟩).gitArgs = ["--since=1 week ago", "main"] ∧
    (parseArgs ⟨fun _ => none, none⟩
      (fun v => if v = "GH_SHORTLOG_ARGS" then "--since=1 week ago\x1fmain" else "")
      ⟨[], "", false, "", "", ""⟩ []).map (fun r => r.gitArgs) = some [] := by
  decide

/-- C8. Plain tokens: when no token is the separator `--` and no token is an
existing directory (a token starting with `-` is never looked up), `parseArgs`
returns with `gitArgs` the tokens without `--no-mouse`, in order, `noMouse`
set if `--no-mouse` occurs, and every other global as the environment part
left it; `workDir` is the initial one when `GH_SHORTLOG_DIR` is not set. -/
theorem parseArgs_plain_tokens (fs : FileSystem) (getenv : String → String) (g : Globals)
    (args : List String)
    (h : ∀ a ∈ args, a ≠ "--" ∧ (hasPrefix a "-" = true ∨ fs.stat a ≠ some true)) :
    parseArgs fs getenv g args =
      some { loadEnv getenv g with
        gitArgs := args.filter (fun a => a ≠ "--no-mouse"),
        noMouse := g.noMouse || decide ("--no-mouse" ∈ args) } ∧
    (getenv "GH_SHORTLOG_DIR" = "" → (loadEnv getenv g).workDir = g.workDir) := by
  constructor
  · have := parseLoop_plain fs args [] (loadEnv getenv g) []
      (fun a ha => ⟨(h a ha).1, Or.inr (h a ha).2⟩)
    rw [List.append_nil] at this
    rw [parseArgs, this, parseLoop_nil, loadEnv_noMouse]
    simp
  · intro he
    rw [loadEnv_workDir, he]
    simp

theorem parseArgs_plain_tokens_witness :
    parseArgs testFS noEnv initGlobals ["--no-mouse", "--since=1 month ago"]
      = some ⟨["--since=1 month ago"], "", true, "", "", ""⟩ ∧
    (loadEnv noEnv initGlobals).workDir = initGlobals.workDir :=
  have h := parseArgs_plain_tokens testFS noEnv initGlobals ["--no-mouse", "--since=1 month ago"]
    (by decide)
  ⟨h.1, h.2 rfl⟩

/-- C9. Directory token: with `workDir` initially empty, let the first token
that is not a flag be the absolute path `d = /rs/ds` of an existing directory
whose nearest ancestor-or-self with a `.git` entry is `r = /rs`.  Then
`parseArgs` sets `workDir = r`.  If `d` itself has the `.git` entry (`ds`
empty) the token is dropped; otherwise it is replaced by the two tokens `--`
and the path `ds` of `d` relative to `r`.  The flags before `d` and the tokens
after it are passed on (`--no-mouse` being consumed up to a separator). -/
theorem parseArgs_directory_token (fs : FileSystem) (getenv : String → String) (g : Globals)
    (F rest rs ds : List String)
    (hw : g.workDir = "") (henv : getenv "GH_SHORTLOG_DIR" = "")
    (hF : ∀ a ∈ F, hasPrefix a "-" = true ∧ a ≠ "--")
    (hr : ∀ c ∈ rs, ValidElem c) (hd : ∀ c ∈ ds, ValidElem c)
    (hstat : fs.stat (absPathOf (rs ++ ds)) = some true)
    (hroot : hasGit fs (absPathOf rs) = true)
    (hbelow : ∀ k, 1 ≤ k → k ≤ ds.length → hasGit fs (absPathOf (rs ++ ds.take k)) = false) :
    (parseArgs fs getenv g (F ++ absPathOf (rs ++ ds) :: rest)).map
        (fun r => (r.workDir, r.gitArgs)) =
      some (absPathOf rs,
        F.filter (fun a => a ≠ "--no-mouse")
          ++ (if ds = [] then [] else ["--", stringsJoin ds '/']) ++ passRest rest) ∧
    ("--no-mouse" ∉ rest → passRest rest = rest) := by
  constructor
  · have hw0 : (loadEnv getenv g).workDir = "" := by
      rw [loadEnv_workDir, henv, hw]; simp
    have hrd := valid_append hr hd
    have hnf := absPathOf_not_flag (rs ++ ds)
    have h1 : absPathOf (rs ++ ds) ≠ "--no-mouse" := by
      intro h; rw [h] at hnf; exact absurd hnf (by decide)
    have h2 : absPathOf (rs ++ ds) ≠ "--" := by
      intro h; rw [h] at hnf; exact absurd hnf (by decide)
    rw [parseArgs, parseLoop_plain fs F _ _ _ (fun a ha => ⟨(hF a ha).2, Or.inr (Or.inl (hF a ha).1)⟩),
      parseLoop_default _ _ _ _ _ h1 h2]
    simp only [hw0, hnf, hstat, true_and, Bool.false_eq_true, not_false_eq_true, if_true,
      filepathAbs_absPathOf fs _ hrd, List.nil_append]
    by_cases hds : ds = []
    · subst hds
      simp only [List.append_nil]
      have hg : (fs.stat (filepathJoin (absPathOf rs) ".git")).isSome = true := hroot
      rw [if_pos hg, parseLoop_rest _ _ _ _ (absPathOf_ne_empty rs)]
      simp
    · have hg : (fs.stat (filepathJoin (absPathOf (rs ++ ds)) ".git")).isSome = false := by
        have := hbelow ds.length (List.length_pos.2 hds) (le_refl _)
        rwa [List.take_length] at this
      rw [hg, findGitRoot_found fs rs ds hr hd hroot hbelow]
      simp only [Bool.false_eq_true, if_false, ne_eq, absPathOf_ne_empty, not_false_eq_true,
        if_true, filepathRel_absPathOf rs ds hr hd hds]
      rw [parseLoop_rest _ _ _ _ (absPathOf_ne_empty rs)]
      simp [hds]
  · intro hnm
    induction rest with
    | nil => rfl
    | cons a rest ih =>
      have ha : a ≠ "--no-mouse" := fun h => hnm (h ▸ List.mem_cons_self _ _)
      have hr' : "--no-mouse" ∉ rest := fun h => hnm (List.mem_cons_of_mem _ h)
      rw [passRest, if_neg ha, ih hr']
      simp

theorem parseArgs_directory_token_witness :
    (parseArgs testFS noEnv initGlobals ["/tmp/repo/src/pkg"]).map
        (fun r => (r.workDir, r.gitArgs)) = some ("/tmp/repo", ["--", "src/pkg"]) ∧
    (parseArgs testFS noEnv initGlobals ["--no-mouse", "/tmp/repo", "--since=1 week ago"]).map
        (fun r => (r.workDir, r.gitArgs)) = some ("/tmp/repo", ["--since=1 week ago"]) ∧
    passRest ["--since=1 week ago"] = ["--since=1 week ago"] :=
  have h1 := parseArgs_directory_token testFS noEnv initGlobals [] [] ["tmp", "repo"]
    ["src", "pkg"] rfl rfl (by decide) (by decide) (by decide) (by decide) (by decide)
    (by
      intro k h1 h2
      have hk : k = 1 ∨ k = 2 := by
        simp only [List.length_cons, List.length_nil] at h2
        omega
      rcases hk with rfl | rfl <;> decide)
  have h2 := parseArgs_directory_token testFS noEnv initGlobals ["--no-mouse"]
    ["--since=1 week ago"] ["tmp", "repo"] [] rfl rfl (by decide) (by decide) (by decide)
    (by decide) (by decide)
    (by
      intro k h1 h2
      simp only [List.length_nil] at h2
      omega)
  ⟨h1.1, h2.1, h2.2 (by decide)⟩

/-- C10. Separator form equals bare form: with `workDir` initially empty, let
`d = /rs/ds` be an existing directory strictly below its repository root
`r = /rs` (the nearest directory on the way up with a `.git` entry), and let
`F` be flag tokens, none of them `--` or `--no-mouse`.  Then
`parseArgs (F ++ ["--", d])` and `parseArgs (F ++ [d])` give the same result,
with `workDir = r` and `gitArgs = F ++ ["--", ds]`, `ds` being the path of `d`
relative to `r`. -/
theorem parseArgs_separator_eq_bare (fs : FileSystem) (getenv : String → String) (g : Globals)
    (F rs ds : List String)
    (hw : g.workDir = "") (henv : getenv "GH_SHORTLOG_DIR" = "")
    (hF : ∀ a ∈ F, hasPrefix a "-" = true ∧ a ≠ "--" ∧ a ≠ "--no-mouse")
    (hr : ∀ c ∈ rs, ValidElem c) (hd : ∀ c ∈ ds, ValidElem c) (hne : ds ≠ [])
    (hstat : fs.stat (absPathOf (rs ++ ds)) = some true)
    (hroot : hasGit fs (absPathOf rs) = true)
    (hbelow : ∀ k, 1 ≤ k → k ≤ ds.length → hasGit fs (absPathOf (rs ++ ds.take k)) = false) :
    parseArgs fs getenv g (F ++ ["--", absPathOf (rs ++ ds)])
      = parseArgs fs getenv g (F ++ [absPathOf (rs ++ ds)]) ∧
    (parseArgs fs getenv g (F ++ [absPathOf (rs ++ ds)])).map (fun r => (r.workDir, r.gitArgs))
      = some (absPathOf rs, F ++ ["--", stringsJoin ds '/']) := by
  have hw0 : (loadEnv getenv g).workDir = "" := by
    rw [loadEnv_workDir, henv, hw]; simp
  have hrd := valid_append hr hd
  have hnf := absPathOf_not_flag (rs ++ ds)
  have h1 : absPathOf (rs ++ ds) ≠ "--no-mouse" := by
    intro h; rw [h] at hnf; exact absurd hnf (by decide)
  have h2 : absPathOf (rs ++ ds) ≠ "--" := by
    intro h; rw [h] at hnf; exact absurd hnf (by decide)
  have hplain : ∀ a ∈ F, a ≠ "--" ∧
      ((loadEnv getenv g).workDir ≠ "" ∨ hasPrefix a "-" = true ∨ fs.stat a ≠ some true) :=
    fun a ha => ⟨(hF a ha).2.1, Or.inr (Or.inl (hF a ha).1)⟩
  have hg : (fs.stat (filepathJoin (absPathOf (rs ++ ds)) ".git")).isSome = false := by
    have := hbelow ds.length (List.length_pos.2 hne) (le_refl _)
    rwa [List.take_length] at this
  have hfilter : F.filter (fun a => a ≠ "--no-mouse") = F := by
    rw [List.filter_eq_self]
    intro a ha
    simpa using (hF a ha).2.2
  have hbare : parseArgs fs getenv g (F ++ [absPathOf (rs ++ ds)]) =
      some { loadEnv getenv g with
        noMouse := (loadEnv getenv g).noMouse || decide ("--no-mouse" ∈ F),
        workDir := absPathOf rs,
        gitArgs := F ++ ["--", stringsJoin ds '/'] } := by
    rw [parseArgs, parseLoop_plain fs F _ _ _ hplain, parseLoop_default _ _ _ _ _ h1 h2]
    simp only [hw0, hnf, hstat, true_and, Bool.false_eq_true, not_false_eq_true, if_true,
      filepathAbs_absPathOf fs _ hrd, List.nil_append, hg, if_false,
      findGitRoot_found fs rs ds hr hd hroot hbelow, ne_eq, absPathOf_ne_empty,
      filepathRel_absPathOf rs ds hr hd hne, parseLoop_nil, hfilter]
  have hsep : parseArgs fs getenv g (F ++ ["--", absPathOf (rs ++ ds)]) =
      some { loadEnv getenv g with
        noMouse := (loadEnv getenv g).noMouse || decide ("--no-mouse" ∈ F),
        workDir := absPathOf rs,
        gitArgs := F ++ ["--", stringsJoin ds '/'] } := by
    rw [parseArgs, parseLoop_plain fs F _ _ _ hplain, parseLoop_sep]
    simp only [hw0, hstat, true_and, if_true, filepathAbs_absPathOf fs _ hrd, List.nil_append,
      Option.getD_some, findGitRoot_found fs rs ds hr hd hroot hbelow, ne_eq, absPathOf_ne_empty,
      not_false_eq_true, List.map_cons, List.map_nil, relativize,
      filepathRel_absPathOf rs ds hr hd hne, hfilter, and_self]
  refine ⟨by rw [hsep, hbare], ?_⟩
  rw [hbare]
  rfl

theorem parseArgs_separator_eq_bare_witness :
    parseArgs testFS noEnv initGlobals ["--since=1 week ago", "--", "/tmp/repo/src"]
      = parseArgs testFS noEnv initGlobals ["--since=1 week ago", "/tmp/repo/src"] ∧
    (parseArgs testFS noEnv initGlobals ["--since=1 week ago", "/tmp/repo/src"]).map
        (fun r => (r.workDir, r.gitArgs))
      = some ("/tmp/repo", ["--since=1 week ago", "--", "src"]) :=
  parseArgs_separator_eq_bare testFS noEnv initGlobals ["--since=1 week ago"] ["tmp", "repo"]
    ["src"] rfl rfl (by decide) (by decide) (by decide) (by decide) (by decide) (by decide)
    (by
      intro k h1 h2
      have hk : k = 1 := by
        simp only [List.length_cons, List.length_nil] at h2
        omega
      subst hk
      decide)


/-! ## The walk to the repository root (claim C11) -/

/-- The walk of `findGitRoot` from `/cs` ends with the empty string when no
directory on the way up to the root has a `.git` entry. -/
theorem findGitRootLoop_none (fs : FileSystem) (cs : List String)
    (hv : ∀ c ∈ cs, ValidElem c)
    (hno : ∀ k, k ≤ cs.length → hasGit fs (absPathOf (cs.take k)) = false)
    (fuel : Nat) (hfuel : cs.length < fuel) :
    findGitRootLoop fs fuel (absPathOf cs) = some "" := by
  induction cs using List.reverseRecOn generalizing fuel with
  | nil =>
    cases fuel with
    | zero => exact absurd hfuel (by simp)
    | succ n =>
      have h0 : (fs.stat (filepathJoin (absPathOf []) ".git")).isSome = false := by
        have := hno 0 (le_refl _)
        simpa [hasGit] using this
      rw [findGitRootLoop]
      simp only [h0, filepathDir_root, if_true, Bool.false_eq_true, if_false]
  | append_singleton cs c ih =>
    cases fuel with
    | zero => exact absurd hfuel (by simp)
    | succ n =>
      have hcs : ∀ e ∈ cs, ValidElem e := fun e he => hv e (List.mem_append_left _ he)
      have hc : ValidElem c := hv c (List.mem_append_right _ (List.mem_singleton_self c))
      have h0 : (fs.stat (filepathJoin (absPathOf (cs ++ [c])) ".git")).isSome = false := by
        have := hno (cs ++ [c]).length (le_refl _)
        rwa [List.take_length] at this
      have hdir : filepathDir (absPathOf (cs ++ [c])) = absPathOf cs :=
        filepathDir_absPathOf_snoc _ _ hcs hc
      have hne : absPathOf cs ≠ absPathOf (cs ++ [c]) := by
        intro h
        have := absPathOf_injective _ _ hcs hv h
        have hl := congrArg List.length this
        simp at hl
      rw [findGitRootLoop]
      simp only [h0, hdir, hne, if_false, Bool.false_eq_true]
      apply ih hcs
      · intro k hk
        have := hno k (by simp; omega)
        rwa [List.take_append_of_le_length hk] at this
      · simp at hfuel
        omega

/-- C11. `findGitRoot` returns the nearest enclosing repository root: for every
absolute directory path `d = /cs` and every file system, the walk returns; the
result is either the longest ancestor-or-self `/cs[:n]` of `d` with a `.git`
entry, or the empty string, and it is the empty string exactly when no
ancestor-or-self of `d`, the root `/` included, has a `.git` entry. -/
theorem findGitRoot_nearest (fs : FileSystem) (cs : List String)
    (hv : ∀ c ∈ cs, ValidElem c) :
    (∃ r, findGitRoot fs (absPathOf cs) = some r ∧
      (r = "" ∨ ∃ n, n ≤ cs.length ∧ r = absPathOf (cs.take n) ∧ hasGit fs r = true ∧
        ∀ k, n < k → k ≤ cs.length → hasGit fs (absPathOf (cs.take k)) = false)) ∧
    (findGitRoot fs (absPathOf cs) = some "" ↔
      ∀ k, k ≤ cs.length → hasGit fs (absPathOf (cs.take k)) = false) := by
  have hfuel : cs.length < (absPathOf cs).length + 2 := by
    have := length_le_absPathOf cs
    omega
  by_cases hex : ∃ k, k ≤ cs.length ∧ hasGit fs (absPathOf (cs.take k)) = true
  · obtain ⟨k0, hk0, hg0⟩ := hex
    let P : Nat → Prop := fun k => hasGit fs (absPathOf (cs.take k)) = true
    have hP : P k0 := hg0
    have hspec : P (Nat.findGreatest P cs.length) := Nat.findGreatest_spec hk0 hP
    have hle : Nat.findGreatest P cs.length ≤ cs.length := Nat.findGreatest_le _
    have hgreat : ∀ k, Nat.findGreatest P cs.length < k → k ≤ cs.length → ¬ P k :=
      fun k h1 h2 => Nat.findGreatest_is_greatest h1 h2
    set n := Nat.findGreatest P cs.length with hn
    have hsplit : cs = cs.take n ++ cs.drop n := (List.take_append_drop n cs).symm
    have hvt : ∀ c ∈ cs.take n, ValidElem c := fun c hc => hv c (List.mem_of_mem_take hc)
    have hvd : ∀ c ∈ cs.drop n, ValidElem c := fun c hc => hv c (List.mem_of_mem_drop hc)
    have hbelow : ∀ k, 1 ≤ k → k ≤ (cs.drop n).length →
        hasGit fs (absPathOf (cs.take n ++ (cs.drop n).take k)) = false := by
      intro k h1 h2
      have hk : n + k ≤ cs.length := by
        rw [List.length_drop] at h2
        omega
      have hnot := hgreat (n + k) (by omega) hk
      have htake : cs.take n ++ (cs.drop n).take k = cs.take (n + k) := by
        rw [List.take_add]
      rw [htake]
      simpa [P] using hnot
    have hfound : findGitRoot fs (absPathOf cs) = some (absPathOf (cs.take n)) := by
      have := findGitRoot_found fs (cs.take n) (cs.drop n) hvt hvd hspec hbelow
      rwa [← hsplit] at this
    refine ⟨⟨_, hfound, Or.inr ⟨n, hle, rfl, hspec, ?_⟩⟩, ?_⟩
    · intro k h1 h2
      simpa [P] using hgreat k h1 h2
    · rw [hfound]
      constructor
      · intro h
        exact absurd (Option.some.inj h) (absPathOf_ne_empty _)
      · intro h
        have := h k0 hk0
        rw [hg0] at this
        exact absurd this (by decide)
  · have hno : ∀ k, k ≤ cs.length → hasGit fs (absPathOf (cs.take k)) = false := by
      intro k hk
      by_contra h
      exact hex ⟨k, hk, by simpa using h⟩
    have hnone : findGitRoot fs (absPathOf cs) = some "" :=
      findGitRootLoop_none fs cs hv hno _ hfuel
    exact ⟨⟨_, hnone, Or.inl rfl⟩, fun _ => hno, fun _ => hnone⟩

theorem findGitRoot_nearest_witness :
    findGitRoot testFS "/tmp/repo/src/pkg" = some "/tmp/repo" ∧
    findGitRoot testFS "/tmp" = some "" ∧
    (findGitRoot testFS (absPathOf ["tmp"]) = some "" ↔
      ∀ k, k ≤ ["tmp"].length → hasGit testFS (absPathOf (["tmp"].take k)) = false) :=
  ⟨by decide, by decide, (findGitRoot_nearest testFS ["tmp"] (by decide)).2⟩


/-! ## Revision injection (claim C12) -/

theorem scanGitArgs_eq (G : List String) (i : Nat) (b : Bool) :
    scanGitArgs G i b =
      (b || (G.takeWhile (fun a => a ≠ "--")).any (fun a => !hasPrefix a "-"),
       if G.dropWhile (fun a => a ≠ "--") = [] then -1
       else ((i + (G.takeWhile (fun a => a ≠ "--")).length : Nat) : Int)) := by
  induction G generalizing i b with
  | nil => simp [scanGitArgs]
  | cons a G ih =>
    rw [scanGitArgs]
    by_cases hdd : a = "--"
    · simp [hdd]
    · rw [if_neg hdd]
      have hshift : ∀ b', scanGitArgs G (i + 1) b' =
          (b' || (G.takeWhile (fun a => a ≠ "--")).any (fun a => !hasPrefix a "-"),
           if G.dropWhile (fun a => a ≠ "--") = [] then -1
           else ((i + ((G.takeWhile (fun a => a ≠ "--")).length + 1) : Nat) : Int)) := by
        intro b'
        rw [ih, Nat.add_assoc, Nat.add_comm 1]
      cases hp : hasPrefix a "-" <;>
        simp [hshift, List.takeWhile_cons, List.dropWhile_cons, hdd, hp]

theorem dropWhile_sep_head (G : List String) :
    (G.dropWhile (fun a => a ≠ "--")).head? = (if "--" ∈ G then some "--" else none) := by
  induction G with
  | nil => simp
  | cons a G ih =>
    by_cases h : a = "--"
    · simp [List.dropWhile_cons, h]
    · have hne : ¬ "--" = a := fun h' => h h'.symm
      rw [List.dropWhile_cons, if_pos (by simpa using h), ih]
      simp [hne]

theorem shortlogArgs_eq (G : List String) (sinceDate : String) :
    shortlogArgs G sinceDate =
      if (G.takeWhile (fun a => a ≠ "--")).any (fun a => !hasPrefix a "-") = true then
        ["shortlog", "-n", "-s", "-e"]
          ++ (if sinceDate = "" then [] else ["--since=" ++ sinceDate]) ++ G
      else
        ["shortlog", "-n", "-s", "-e"]
          ++ (if sinceDate = "" then [] else ["--since=" ++ sinceDate])
          ++ G.takeWhile (fun a => a ≠ "--") ++ ["HEAD"] ++ G.dropWhile (fun a => a ≠ "--") := by
  have hsplit := List.takeWhile_append_dropWhile (fun a => decide (a ≠ "--")) G
  have hargs : (if sinceDate ≠ "" then ["shortlog", "-n", "-s", "-e"] ++ ["--since=" ++ sinceDate]
      else ["shortlog", "-n", "-s", "-e"]) =
      ["shortlog", "-n", "-s", "-e"] ++ (if sinceDate = "" then [] else ["--since=" ++ sinceDate]) := by
    by_cases hs : sinceDate = "" <;> simp [hs]
  rw [shortlogArgs, scanGitArgs_eq, hargs]
  cases hany : (G.takeWhile (fun a => a ≠ "--")).any (fun a => !hasPrefix a "-")
  · by_cases hR : G.dropWhile (fun a => a ≠ "--") = []
    · have hP : G.takeWhile (fun a => a ≠ "--") = G := by
        have := hsplit
        rwa [hR, List.append_nil] at this
      have hneg : ¬ ((-1 : Int) ≥ 0) := by decide
      simp only [hR, if_true, Bool.or_self, Bool.false_eq_true, not_false_eq_true, hneg, if_false,
        hP, List.append_nil]
    · have htake : G.take (G.takeWhile (fun a => a ≠ "--")).length
          = G.takeWhile (fun a => a ≠ "--") := by
        have := @List.take_left _ (G.takeWhile (fun a => a ≠ "--"))
          (G.dropWhile (fun a => a ≠ "--"))
        rwa [hsplit] at this
      have hdrop : G.drop (G.takeWhile (fun a => a ≠ "--")).length
          = G.dropWhile (fun a => a ≠ "--") := by
        have := @List.drop_left _ (G.takeWhile (fun a => a ≠ "--"))
          (G.dropWhile (fun a => a ≠ "--"))
        rwa [hsplit] at this
      have hnn : ((0 + (G.takeWhile (fun a => a ≠ "--")).length : Nat) : Int) ≥ 0 :=
        Int.ofNat_nonneg _
      simp only [hR, if_false, Bool.or_self, Bool.false_eq_true, not_false_eq_true, if_true, hnn,
        Int.toNat_ofNat, Nat.zero_add, htake, hdrop]
      rw [if_pos (Int.ofNat_nonneg _)]
  · simp only [Bool.or_true, not_true_eq_false, if_false, if_true]

/-- C12. Revision injection: let `P` be the tokens of the pass-through list `G`
before its first `--` and `R` the tokens from there on (`G = P ++ R`; `R` is
empty when `G` has no `--`).  After the fixed prefix and the optional
`--since`, the argument list is `G` itself when some token of `P` does not
start with `-`; otherwise it is `P ++ ["HEAD"] ++ R`: one `HEAD`, right before
the first separator, or at the very end when there is none. -/
theorem head_injection (G : List String) (sinceDate : String) :
    (G.takeWhile (fun a => a ≠ "--") ++ G.dropWhile (fun a => a ≠ "--") = G) ∧
    (∀ a ∈ G.takeWhile (fun a => a ≠ "--"), a ≠ "--") ∧
    (G.dropWhile (fun a => a ≠ "--")).head? = (if "--" ∈ G then some "--" else none) ∧
    ("--" ∉ G → G.takeWhile (fun a => a ≠ "--") = G ∧ G.dropWhile (fun a => a ≠ "--") = []) ∧
    ((∃ a ∈ G.takeWhile (fun a => a ≠ "--"), hasPrefix a "-" = false) →
      shortlogArgs G sinceDate =
        ["shortlog", "-n", "-s", "-e"]
          ++ (if sinceDate = "" then [] else ["--since=" ++ sinceDate]) ++ G) ∧
    ((∀ a ∈ G.takeWhile (fun a => a ≠ "--"), hasPrefix a "-" = true) →
      shortlogArgs G sinceDate =
        ["shortlog", "-n", "-s", "-e"]
          ++ (if sinceDate = "" then [] else ["--since=" ++ sinceDate])
          ++ G.takeWhile (fun a => a ≠ "--") ++ ["HEAD"] ++ G.dropWhile (fun a => a ≠ "--")) := by
  have hsplit := List.takeWhile_append_dropWhile (fun a => decide (a ≠ "--")) G
  refine ⟨hsplit, ?_, dropWhile_sep_head G, ?_, ?_, ?_⟩
  · intro a ha
    simpa using List.mem_takeWhile_imp ha
  · intro hno
    have hall : ∀ a ∈ G, decide (a ≠ "--") = true := by
      intro a ha
      have : a ≠ "--" := fun h => hno (h ▸ ha)
      simpa using this
    exact ⟨List.takeWhile_eq_self_iff.2 hall, List.dropWhile_eq_nil_iff.2 hall⟩
  · rintro ⟨a, ha, hp⟩
    have hany : (G.takeWhile (fun a => a ≠ "--")).any (fun a => !hasPrefix a "-") = true :=
      List.any_eq_true.2 ⟨a, ha, by simp [hp]⟩
    rw [shortlogArgs_eq, if_pos hany]
  · intro hall
    have hany : ¬ (G.takeWhile (fun a => a ≠ "--")).any (fun a => !hasPrefix a "-") = true := by
      rw [List.any_eq_true]
      rintro ⟨a, ha, hp⟩
      simp [hall a ha] at hp
    rw [shortlogArgs_eq, if_neg hany]

theorem head_injection_witness :
    shortlogArgs ["--since=1 week ago", "--", "src/"] "2024-01-01"
      = ["shortlog", "-n", "-s", "-e", "--since=2024-01-01", "--since=1 week ago", "HEAD", "--",
          "src/"] ∧
    shortlogArgs ["origin..HEAD", "--", "src/"] ""
      = ["shortlog", "-n", "-s", "-e", "origin..HEAD", "--", "src/"] ∧
    shortlogArgs ["--since=1 week ago"] "" = ["shortlog", "-n", "-s", "-e", "--since=1 week ago", "HEAD"] ∧
    (["--since=1 week ago"].takeWhile (fun a => a ≠ "--") = ["--since=1 week ago"] ∧
      ["--since=1 week ago"].dropWhile (fun a => a ≠ "--") = []) :=
  ⟨(head_injection ["--since=1 week ago", "--", "src/"] "2024-01-01").2.2.2.2.2 (by decide),
   (head_injection ["origin..HEAD", "--", "src/"] "").2.2.2.2.1 (by decide),
   (head_injection ["--since=1 week ago"] "").2.2.2.2.2 (by decide),
   (head_injection ["--since=1 week ago"] "").2.2.2.1 (by decide)⟩


/-! ## Formatting of the author table (claims C13 to C15) -/

/-- C13. Row count and rank: let `N` be the number of lines of the trimmed
input that contain a tab after trimming (the parsed rows).  The output of
`formatShortlogOutput` is the concatenation of `N` rows, each without a
newline and followed by one newline (so splitting the output at newlines
gives the `N` rows and an empty rest); row `i` (1-based) begins with the
decimal rank `i` padded with spaces on the left to four characters; with no
parsed row, in particular for an empty or whitespace-only input, the output
is the empty string. -/
theorem row_count_and_rank (input : String) :
    ∃ rows : List String,
      rows.length = ((stringsSplit (trimSpace input) '\n').filter
        (fun l => decide ('\t' ∈ (trimSpace l).data))).length ∧
      formatShortlogOutput input = String.join (rows.map (fun r => r ++ "\n")) ∧
      (∀ r ∈ rows, '\n' ∉ r.data) ∧
      stringsSplit (formatShortlogOutput input) '\n' = rows ++ [""] ∧
      (∀ i (hi : i < rows.length), ∃ tail, rows.get ⟨i, hi⟩ =
        String.mk (List.replicate (4 - (Nat.repr (i + 1)).length) ' ') ++ Nat.repr (i + 1)
          ++ tail) ∧
      (rows = [] → formatShortlogOutput input = "") ∧
      ((∀ c ∈ input.data, isSpace c = true) → rows = []) := by
  obtain ⟨rows, hlen, hjoin, hnl, hrank⟩ := writeRows_rows
    ((stringsSplit (trimSpace input) '\n').foldl parseStep ⟨[], 0, 0⟩).maxCount
    ((stringsSplit (trimSpace input) '\n').foldl parseStep ⟨[], 0, 0⟩).maxName
    (parsedEntries input) 0 (parsedEntries_no_newline input)
  rw [← formatShortlogOutput_eq] at hjoin
  have hN : rows.length = ((stringsSplit (trimSpace input) '\n').filter
      (fun l => decide ('\t' ∈ (trimSpace l).data))).length := by
    rw [hlen, parsedEntries, filterMap_length_eq]
  refine ⟨rows, hN, hjoin, hnl, ?_, ?_, ?_, ?_⟩
  · rw [hjoin, join_lines_eq]
    apply stringsSplit_stringsJoin
    · simp
    · intro e he
      rcases List.mem_append.1 he with he | he
      · exact hnl e he
      · rw [List.mem_singleton.1 he]
        simp
  · intro i hi
    obtain ⟨tail, ht⟩ := hrank i hi
    refine ⟨tail, ?_⟩
    rw [ht, Nat.zero_add]
    rfl
  · intro h
    rw [hjoin, h]
    rfl
  · intro hsp
    have ht := trimSpace_of_spaces input hsp
    have h0 : rows.length = 0 := by
      rw [hN, ht]
      decide
    exact List.length_eq_zero.1 h0

/-- C14. Column alignment: there are widths `wc` and `wn` such that the output
is written with every count field `padLeft wc (itoa count)` exactly `wc`
characters wide (spaces on the left; `wc` is the width of the widest count)
and every name field `padRight wn name` exactly `wn` characters wide (spaces
on the right), whatever characters the names contain. -/
theorem column_alignment (input : String) :
    ∃ wc wn : Nat,
      formatShortlogOutput input = writeRows wc wn 0 (parsedEntries input) ∧
      (∀ e ∈ parsedEntries input,
        (padLeft wc (itoa e.count)).length = wc ∧
        padLeft wc (itoa e.count)
          = String.mk (List.replicate (wc - (itoa e.count).length) ' ') ++ itoa e.count ∧
        (padRight wn e.name).length = wn ∧
        padRight wn e.name = e.name ++ String.mk (List.replicate (wn - e.name.length) ' ')) ∧
      (parsedEntries input ≠ [] → ∃ e ∈ parsedEntries input, (itoa e.count).length = wc) := by
  have hinv := widthInv_foldl (stringsSplit (trimSpace input) '\n') ⟨[], 0, 0⟩ widthInv_init
  have hent := foldl_parseStep_entries (stringsSplit (trimSpace input) '\n') ⟨[], 0, 0⟩
  simp only [List.nil_append] at hent
  obtain ⟨h1, _, h3⟩ := hinv
  rw [hent] at h1 h3
  refine ⟨_, _, formatShortlogOutput_eq input, ?_, ?_⟩
  · intro e he
    obtain ⟨hc, hn⟩ := h1 e he
    rw [goLen_itoa] at hc
    have hn' := le_trans (length_le_goLen e.name) hn
    exact ⟨padLeft_length _ _ hc, rfl, padRight_length _ _ hn', rfl⟩
  · intro hne
    obtain ⟨⟨e, he, hw⟩, _⟩ := h3 hne
    exact ⟨e, he, by rw [← goLen_itoa, hw]⟩

/-- An aligned table with a name of one two-byte character. -/
theorem column_alignment_example :
    formatShortlogOutput "  1000\tVery Long Name <long@example.com>\n     1\tÅ <a@b.com>"
      = "   1  \x1b[1;32m1000\x1b[0m  \x1b[1;37mVery Long Name\x1b[0m  \x1b[0;36m<long@example.com>\x1b[0m\n"
        ++ "   2  \x1b[1;32m   1\x1b[0m  \x1b[1;37mÅ             \x1b[0m  \x1b[0;36m<a@b.com>\x1b[0m\n" := by
  decide

/-- C15 (counterexample). The line `    5 TAB A <B <c@d.org>` has the name
`A <B` and the email `<c@d.org>`, yet the row shows the name `A` and the email
`<B <c@d.org>`: the pattern `<[^>]+>$` matches from the first `<` on.  The
count `9223372036854775808` is shown as `9223372036854775807`. -/
theorem row_parsing_name_with_bracket :
    parseLine "    5\tA <B <c@d.org>" = some ⟨5, "A", "<B <c@d.org>"⟩ ∧
    parseLine "    5\tA <B <c@d.org>" ≠ some ⟨5, "A <B", "<c@d.org>"⟩ ∧
    formatShortlogOutput "    5\tA <B <c@d.org>"
      = "   1  \x1b[1;32m5\x1b[0m  \x1b[1;37mA\x1b[0m  \x1b[0;36m<B <c@d.org>\x1b[0m\n" ∧
    parseLine "9223372036854775808\tBob <b@x.org>"
      = some ⟨9223372036854775807, "Bob", "<b@x.org>"⟩ := by
  decide

/-- C15 (amended). For a line `<spaces><count> TAB <name> SPACE <email>` where
`count` is a string of decimal digits with value below `2^63`, `email` is `<` +
one or more characters other than `>` + `>`, `name` has no newline and no
surrounding white space and every `<` in it is followed by a later `>` of the
name: the line parses to that count, name and email, and as sole input it
gives the row `rowText` of rank 1: count, name, email in this order, each
between its colour code and the reset code.  For a line
`<spaces><count> TAB <text>` where no suffix of the trimmed text `text` has the
form of an email, the email is empty and `text` is the name. -/
theorem row_parsing (k : Nat) (count name body text : String)
    (hcne : count.data ≠ []) (hcd : ∀ c ∈ count.data, c.isDigit = true)
    (hcb : digitsValue count.data < 2 ^ 63)
    (hname_nl : '\n' ∉ name.data) (hname_sp : NoOuterSpace name.data)
    (hname_lt : ∀ a b, name.data = a ++ '<' :: b → '>' ∈ b)
    (hbody_ne : body.data ≠ []) (hbody_gt : '>' ∉ body.data) (hbody_nl : '\n' ∉ body.data)
    (htext_ne : text.data ≠ []) (htext_nl : '\n' ∉ text.data)
    (htext_sp : NoOuterSpace text.data)
    (htext_no : ∀ p s, text.data = p ++ s → ¬ IsEmail s) :
    parseLine (String.mk (List.replicate k ' ') ++ count ++ "\t" ++ name ++ " "
        ++ ("<" ++ body ++ ">"))
      = some ⟨(digitsValue count.data : Int), name, "<" ++ body ++ ">"⟩ ∧
    formatShortlogOutput (String.mk (List.replicate k ' ') ++ count ++ "\t" ++ name ++ " "
        ++ ("<" ++ body ++ ">"))
      = rowText 0 (itoa (digitsValue count.data : Int)).length (goLen name)
          ⟨(digitsValue count.data : Int), name, "<" ++ body ++ ">"⟩ ++ "\n" ∧
    parseLine (String.mk (List.replicate k ' ') ++ count ++ "\t" ++ text)
      = some ⟨(digitsValue count.data : Int), text, ""⟩ ∧
    formatShortlogOutput (String.mk (List.replicate k ' ') ++ count ++ "\t" ++ text)
      = rowText 0 (itoa (digitsValue count.data : Int)).length (goLen text)
          ⟨(digitsValue count.data : Int), text, ""⟩ ++ "\n" := by
  have hws : ∀ c ∈ List.replicate k ' ', isSpace c = true := by
    intro c hc
    rw [List.eq_of_mem_replicate hc]
    decide
  have hdig_nl : '\n' ∉ count.data := fun h => absurd (hcd _ h) (by decide)
  have hE : IsEmail ('<' :: (body.data ++ ['>'])) := ⟨body.data, hbody_ne, hbody_gt, rfl⟩
  have hEsp : NoOuterSpace ('<' :: (body.data ++ ['>'])) := by
    constructor
    · intro c hc
      have : c = '<' := by simpa using hc.symm
      subst this
      decide
    · intro c hc
      have h1 : ('<' :: (body.data ++ ['>'])) = ('<' :: body.data) ++ ['>'] := by simp
      rw [h1, List.getLast?_concat] at hc
      rw [← Option.some.inj hc]
      decide
  -- the line with an email
  have hline1 : String.mk (List.replicate k ' ') ++ count ++ "\t" ++ name ++ " "
      ++ ("<" ++ body ++ ">")
      = String.mk (List.replicate k ' ' ++ (count.data ++ '\t' ::
          (name.data ++ ' ' :: '<' :: (body.data ++ ['>'])))) := by
    apply String.ext
    simp [String.data_append]
  have hparse1 : parseLine (String.mk (List.replicate k ' ' ++ (count.data ++ '\t' ::
      (name.data ++ ' ' :: '<' :: (body.data ++ ['>'])))))
      = some ⟨(digitsValue count.data : Int), name, "<" ++ body ++ ">"⟩ := by
    have hem : String.mk ('<' :: (body.data ++ ['>'])) = "<" ++ body ++ ">" := by
      apply String.ext
      simp [String.data_append]
    by_cases hn : name.data = []
    · have h := parseLine_general (List.replicate k ' ') count.data [' ']
        ('<' :: (body.data ++ ['>'])) [] hws hcne hcd hcb (by decide) (by simp)
        (List.cons_ne_nil _ _) hEsp
      rw [findEmail_of_isEmail _ hE] at h
      have hsuf : trimSuffix (String.mk ('<' :: (body.data ++ ['>'])))
          (String.mk ('<' :: (body.data ++ ['>']))) = "" := by
        unfold trimSuffix
        rw [if_pos (List.isSuffixOf_iff_suffix.2 (List.suffix_refl _))]
        simp
      have hname : name = "" := String.ext hn
      rw [hsuf, hem] at h
      rw [hn, hname]
      simpa using h
    · have hTsp : NoOuterSpace (name.data ++ ' ' :: '<' :: (body.data ++ ['>'])) := by
        constructor
        · intro c hc
          rw [List.head?_append_of_ne_nil _ hn] at hc
          exact hname_sp.1 c hc
        · intro c hc
          apply hEsp.2 c
          have h1 : name.data ++ ' ' :: '<' :: (body.data ++ ['>'])
              = (name.data ++ [' ']) ++ ('<' :: (body.data ++ ['>'])) := by simp
          rw [h1, List.getLast?_append_of_ne_nil _ (List.cons_ne_nil _ _)] at hc
          exact hc
      have h := parseLine_general (List.replicate k ' ') count.data []
        (name.data ++ ' ' :: '<' :: (body.data ++ ['>'])) [] hws hcne hcd hcb (by simp) (by simp)
        (by simp) hTsp
      rw [findEmail_skip _ _ hname_lt ' ' (by decide), findEmail_of_isEmail _ hE] at h
      have hsuf : trimSuffix (String.mk (name.data ++ ' ' :: '<' :: (body.data ++ ['>'])))
          (String.mk ('<' :: (body.data ++ ['>']))) = String.mk (name.data ++ [' ']) := by
        unfold trimSuffix
        have hs : ('<' :: (body.data ++ ['>']))
            <:+ (name.data ++ ' ' :: '<' :: (body.data ++ ['>'])) :=
          ⟨name.data ++ [' '], by simp⟩
        rw [if_pos (List.isSuffixOf_iff_suffix.2 hs)]
        congr 1
        have hlen : (name.data ++ ' ' :: '<' :: (body.data ++ ['>'])).length
            - ('<' :: (body.data ++ ['>'])).length = (name.data ++ [' ']).length := by
          simp only [List.length_append, List.length_cons, List.length_nil]
          omega
        rw [hlen]
        have h1 : name.data ++ ' ' :: '<' :: (body.data ++ ['>'])
            = (name.data ++ [' ']) ++ ('<' :: (body.data ++ ['>'])) := by simp
        rw [h1, List.take_left]
      have htr : trimSpace (String.mk (name.data ++ [' '])) = name := by
        have := trimSpace_core [] name.data [' '] (by simp) (by decide) hname_sp
        simpa using this
      rw [hsuf, htr, hem] at h
      simpa using h
  have hnl1 : '\n' ∉ (String.mk (List.replicate k ' ' ++ (count.data ++ '\t' ::
      (name.data ++ ' ' :: '<' :: (body.data ++ ['>']))))).data := by
    intro h
    simp only [List.mem_append, List.mem_cons, List.mem_singleton, List.not_mem_nil,
      or_false] at h
    rcases h with h | h | h | h | h | h | h | h
    · exact absurd (List.eq_of_mem_replicate h) (by decide)
    · exact hdig_nl h
    · exact absurd h (by decide)
    · exact hname_nl h
    · exact absurd h (by decide)
    · exact absurd h (by decide)
    · exact hbody_nl h
    · exact absurd h (by decide)
  -- the line without an email
  have hline2 : String.mk (List.replicate k ' ') ++ count ++ "\t" ++ text
      = String.mk (List.replicate k ' ' ++ (count.data ++ '\t' :: ([] ++ text.data ++ []))) := by
    apply String.ext
    simp [String.data_append]
  have hparse2 : parseLine (String.mk (List.replicate k ' ' ++
      (count.data ++ '\t' :: ([] ++ text.data ++ []))))
      = some ⟨(digitsValue count.data : Int), text, ""⟩ := by
    have h := parseLine_general (List.replicate k ' ') count.data [] text.data [] hws hcne hcd hcb
      (by simp) (by simp) htext_ne htext_sp
    rw [findEmail_none _ htext_no] at h
    have hsuf : trimSuffix (String.mk text.data) (String.mk []) = text := by
      unfold trimSuffix
      rw [if_pos (by simp)]
      show String.mk (text.data.take (text.data.length - 0)) = text
      rw [Nat.sub_zero, List.take_length]
    rw [hsuf, trimSpace_self _ htext_sp] at h
    exact h
  have hnl2 : '\n' ∉ (String.mk (List.replicate k ' ' ++
      (count.data ++ '\t' :: ([] ++ text.data ++ [])))).data := by
    intro h
    simp only [List.mem_append, List.mem_cons, List.not_mem_nil, or_false, false_or,
      List.nil_append, List.append_nil] at h
    rcases h with h | h | h | h
    · exact absurd (List.eq_of_mem_replicate h) (by decide)
    · exact hdig_nl h
    · exact absurd h (by decide)
    · exact htext_nl h
  rw [hline1, hline2]
  refine ⟨hparse1, ?_, hparse2, ?_⟩
  · rw [formatShortlogOutput_single _ _ hnl1 hparse1, goLen_itoa]
  · rw [formatShortlogOutput_single _ _ hnl2 hparse2, goLen_itoa]

theorem row_parsing_witness :
    formatShortlogOutput "   100\tJohn Doe <john@example.com>"
      = "   1  \x1b[1;32m100\x1b[0m  \x1b[1;37mJohn Doe\x1b[0m  \x1b[0;36m<john@example.com>\x1b[0m\n" ∧
    parseLine "   100\tJohn Doe <john@example.com>"
      = some ⟨100, "John Doe", "<john@example.com>"⟩ ∧
    parseLine "   100\tNo Mail" = some ⟨100, "No Mail", ""⟩ :=
  have h := row_parsing 3 "100" "John Doe" "john@example.com" "No Mail"
    (by decide) (by decide) (by decide) (by decide)
    (noOuterSpace_of _ 'J' 'e' rfl rfl (by decide) (by decide))
    (bracket_closed_of_none _ (by decide)) (by decide) (by decide) (by decide) (by decide)
    (by decide) (noOuterSpace_of _ 'N' 'l' rfl rfl (by decide) (by decide))
    (no_email_of_none _ (by decide))
  ⟨h.2.1, h.1, h.2.2.1⟩


/-! ## Shell quoting (claim C16) -/

theorem shellWords_single_step (acc rest : List Char) (c : Char) (hc : c ≠ '\'') :
    shellWords QuoteState.single (some acc) (c :: rest)
      = shellWords QuoteState.single (some (acc ++ [c])) rest := by
  conv_lhs => unfold shellWords
  simp [hc]

theorem shellWords_single_quote (acc rest : List Char) :
    shellWords QuoteState.single (some acc) ("'\"'\"'".data ++ rest)
      = shellWords QuoteState.single (some (acc ++ ['\''])) rest := by
  show shellWords QuoteState.single (some acc) ('\'' :: '"' :: '\'' :: '"' :: '\'' :: rest) = _
  conv_lhs =>
    unfold shellWords
    simp only [if_true]
    unfold shellWords
    simp only [show ('"' : Char) ≠ '\'' from by decide, if_false, if_true, Option.getD_some]
    unfold shellWords
    simp only [show ('\'' : Char) ≠ '"' from by decide, show ('\'' : Char) ≠ '\\' from by decide,
      show ¬ (('\'' : Char) = '$' ∨ ('\'' : Char) = '`') from by decide, if_false,
      Option.getD_some]
    unfold shellWords
    simp only [if_true]
    unfold shellWords
    simp only [if_true, Option.getD_some]

theorem shellWords_single_close (acc : List Char) :
    shellWords QuoteState.single (some acc) ['\''] = some [String.mk acc] := by
  unfold shellWords
  simp only [if_true]
  unfold shellWords
  rfl

/-- Reading the quoted form of `t` inside single quotes gives `t`. -/
theorem shellWords_replace (t acc : List Char) :
    shellWords QuoteState.single (some acc)
        (t.flatMap (fun c => if c = '\'' then "'\"'\"'".data else [c]) ++ ['\''])
      = some [String.mk (acc ++ t)] := by
  induction t generalizing acc with
  | nil => simpa using shellWords_single_close acc
  | cons c t ih =>
    rw [List.flatMap_cons, List.append_assoc]
    by_cases hc : c = '\''
    · rw [if_pos hc, shellWords_single_quote, ih, hc]
      simp
    · rw [if_neg hc]
      show shellWords QuoteState.single (some acc)
        (c :: (t.flatMap (fun c => if c = '\'' then "'\"'\"'".data else [c]) ++ ['\''])) = _
      rw [shellWords_single_step _ _ _ hc, ih]
      simp

theorem shellParse_quoted (s : String) :
    shellParse ("'" ++ replaceAllChar s '\'' "'\"'\"'" ++ "'") = some [s] := by
  have hdata : ("'" ++ replaceAllChar s '\'' "'\"'\"'" ++ "'").data
      = '\'' :: (s.data.flatMap (fun c => if c = '\'' then "'\"'\"'".data else [c]) ++ ['\'']) := by
    simp only [String.data_append, replaceAllChar]
    rfl
  unfold shellParse
  rw [hdata]
  unfold shellWords
  simp only [if_true, Option.getD_none]
  rw [shellWords_replace]
  simp

theorem containsAny_iff (s : String) :
    containsAny s " \t\n'\"\\" = true ↔
      ∃ c ∈ s.data, c = ' ' ∨ c = '\'' ∨ c = '\t' ∨ c = '\n' ∨ c = '\\' ∨ c = '"' := by
  unfold containsAny
  rw [List.any_eq_true]
  constructor
  · rintro ⟨c, hc, h⟩
    refine ⟨c, hc, ?_⟩
    have : c ∈ " \t\n'\"\\".data := by simpa using h
    have h2 : c ∈ [' ', '\t', '\n', '\'', '"', '\\'] := this
    simp only [List.mem_cons, List.mem_singleton, List.not_mem_nil, or_false] at h2
    tauto
  · rintro ⟨c, hc, h⟩
    refine ⟨c, hc, ?_⟩
    have h2 : c ∈ [' ', '\t', '\n', '\'', '"', '\\'] := by
      simp only [List.mem_cons, List.mem_singleton, List.not_mem_nil, or_false]
      tauto
    have : c ∈ " \t\n'\"\\".data := h2
    simpa using this

/-- C16. `shellQuote` round trip: a string `s` with at least one space, single
quote, tab, newline, backslash or double quote is quoted as `s` between single
quotes with every single quote replaced by `'"'"'`, and the shell reads this
text back as the one word `s`; a string with none of these six characters is
returned unchanged. -/
theorem shellQuote_roundtrip (s : String) :
    ((∃ c ∈ s.data, c = ' ' ∨ c = '\'' ∨ c = '\t' ∨ c = '\n' ∨ c = '\\' ∨ c = '"') →
      shellQuote s = "'" ++ replaceAllChar s '\'' "'\"'\"'" ++ "'" ∧
      shellParse (shellQuote s) = some [s]) ∧
    ((∀ c ∈ s.data, ¬ (c = ' ' ∨ c = '\'' ∨ c = '\t' ∨ c = '\n' ∨ c = '\\' ∨ c = '"')) →
      shellQuote s = s) := by
  constructor
  · intro h
    have hq : shellQuote s = "'" ++ replaceAllChar s '\'' "'\"'\"'" ++ "'" := by
      unfold shellQuote
      rw [if_pos ((containsAny_iff s).2 h)]
    exact ⟨hq, by rw [hq]; exact shellParse_quoted s⟩
  · intro h
    have hn : ¬ containsAny s " \t\n'\"\\" = true := by
      rw [containsAny_iff]
      rintro ⟨c, hc, hcc⟩
      exact h c hc hcc
    unfold shellQuote
    rw [if_neg hn]

theorem shellQuote_roundtrip_witness :
    shellQuote "don't stop" = "'don'\"'\"'t stop'" ∧
    shellParse (shellQuote "don't stop") = some ["don't stop"] ∧
    shellQuote "path/to/file" = "path/to/file" :=
  have h := (shellQuote_roundtrip "don't stop").1 ⟨' ', by decide, Or.inl rfl⟩
  ⟨h.1, h.2, (shellQuote_roundtrip "path/to/file").2 (by decide)⟩


/-! ## Commit links in the preview (claim C17) -/

theorem commitMatchAt_iff (l : List Char) : commitMatchAt l = true ↔ IsCommitRef l := by
  unfold commitMatchAt IsCommitRef
  simp only [Bool.and_eq_true, decide_eq_true_eq, List.all_eq_true]
  constructor
  · rintro ⟨⟨hpre, hlen⟩, hhex⟩
    obtain ⟨t, ht⟩ := List.isPrefixOf_iff_prefix.1 hpre
    have hdrop : l.drop 7 = t := by
      rw [← ht]
      exact @List.drop_left _ "commit ".data t
    rw [hdrop] at hlen hhex
    refine ⟨t.take 40, t.drop 40, ?_, ?_, hhex⟩
    · rw [List.append_assoc, List.take_append_drop, ht]
    · rw [List.length_take]
      omega
  · rintro ⟨h, rest, rfl, hlen, hhex⟩
    have hdrop : ("commit ".data ++ h ++ rest).drop 7 = h ++ rest := by
      rw [List.append_assoc]
      exact @List.drop_left _ "commit ".data (h ++ rest)
    rw [hdrop]
    refine ⟨⟨?_, ?_⟩, ?_⟩
    · rw [List.isPrefixOf_iff_prefix, List.append_assoc]
      exact List.prefix_append _ _
    · simp only [List.length_append]
      omega
    · have : (h ++ rest).take 40 = h := by
        rw [← hlen]
        exact List.take_left _ _
      rw [this]
      exact hhex

theorem replaceCommits_skip (tpl a b : List Char) :
    replaceCommits tpl a.length (a ++ b) = replaceCommits tpl 0 b := by
  induction a with
  | nil => rfl
  | cons x a ih =>
    show replaceCommits tpl (a.length + 1) (x :: (a ++ b)) = _
    rw [replaceCommits]
    exact ih

theorem expandTemplate_skip (a b : List Char) (g : List (List Char)) :
    expandTemplate g a.length (a ++ b) = expandTemplate g 0 b := by
  induction a with
  | nil => rfl
  | cons x a ih =>
    show expandTemplate g (a.length + 1) (x :: (a ++ b)) = _
    rw [expandTemplate]
    exact ih

theorem expandTemplate_plain (g : List (List Char)) (a b : List Char) (h : '$' ∉ a) :
    expandTemplate g 0 (a ++ b) = a ++ expandTemplate g 0 b := by
  induction a with
  | nil => rfl
  | cons x a ih =>
    have hx : x ≠ '$' := fun hx => h (hx ▸ List.mem_cons_self _ _)
    have ha : '$' ∉ a := fun ha => h (List.mem_cons_of_mem _ ha)
    show expandTemplate g 0 (x :: (a ++ b)) = _
    rw [expandTemplate, if_pos hx, ih ha]
    rfl

theorem expandTemplate_commit (g1 g2 g0 g3 base : List Char) (hb : '$' ∉ base) :
    expandTemplate [g0, g1, g2, g3] 0 ("${1}".data ++ base ++ "/${2}".data)
      = g1 ++ base ++ '/' :: g2 := by
  have e1 : extractRef ('{' :: '1' :: '}' :: (base ++ "/${2}".data))
      = some (['1'], base ++ "/${2}".data) := by
    simp [extractRef, List.takeWhile_cons, List.dropWhile_cons, isWordRune, Char.isAlphanum,
      Char.isAlpha, Char.isDigit, Char.isUpper, Char.isLower]
  have e2 : extractRef ['{', '2', '}'] = some (['2'], []) := by decide
  have r1 : refValue [g0, g1, g2, g3] ['1'] = g1 := by
    have : refNumber ['1'] = some 1 := by decide
    simp [refValue, this]
  have r2 : refValue [g0, g1, g2, g3] ['2'] = g2 := by
    have : refNumber ['2'] = some 2 := by decide
    simp [refValue, this]
  show expandTemplate [g0, g1, g2, g3] 0
    ('$' :: '{' :: '1' :: '}' :: (base ++ "/${2}".data)) = _
  rw [expandTemplate]
  simp only [ne_eq, not_true_eq_false, if_false, List.head?_cons, Option.some.injEq,
    show ('{' : Char) ≠ '$' from by decide, e1, r1]
  have hlen : ('{' :: '1' :: '}' :: (base ++ "/${2}".data)).length
      - (base ++ "/${2}".data).length = ['{', '1', '}'].length := by
    simp only [List.length_cons, List.length_nil]
    omega
  rw [hlen]
  have := expandTemplate_skip ['{', '1', '}'] (base ++ "/${2}".data) [g0, g1, g2, g3]
  rw [show ['{', '1', '}'] ++ (base ++ "/${2}".data)
    = '{' :: '1' :: '}' :: (base ++ "/${2}".data) from rfl] at this
  rw [this, expandTemplate_plain _ _ _ hb]
  show g1 ++ (base ++ expandTemplate [g0, g1, g2, g3] 0 ['/', '$', '{', '2', '}']) = _
  have tail : expandTemplate [g0, g1, g2, g3] 0 ['/', '$', '{', '2', '}'] = '/' :: g2 := by
    rw [expandTemplate, if_pos (by decide), expandTemplate]
    simp only [ne_eq, not_true_eq_false, if_false, List.head?_cons, Option.some.injEq,
      show ('{' : Char) ≠ '$' from by decide, e2, r2]
    have : expandTemplate [g0, g1, g2, g3] (['{', '2', '}'].length - ([] : List Char).length)
        ['{', '2', '}'] = [] := by
      show expandTemplate [g0, g1, g2, g3] 3 ['{', '2', '}'] = []
      rw [expandTemplate, expandTemplate, expandTemplate, expandTemplate]
    rw [this, List.append_nil]
  rw [tail, List.append_assoc]

theorem replaceCommits_match (tpl h post : List Char) (hlen : h.length = 40)
    (hhex : ∀ c ∈ h, isLowerHex c = true) :
    replaceCommits tpl 0 ("commit ".data ++ h ++ post)
      = expandTemplate (commitGroups ("commit ".data ++ h ++ post)) 0 tpl
        ++ replaceCommits tpl 0 post := by
  have hm : commitMatchAt ("commit ".data ++ h ++ post) = true :=
    (commitMatchAt_iff _).2 ⟨h, post, rfl, hlen, hhex⟩
  have hshape : "commit ".data ++ h ++ post = 'c' :: ("ommit ".data ++ h ++ post) := by
    simp
  have hskip := replaceCommits_skip tpl ("ommit ".data ++ h) post
  have h46 : ("ommit ".data ++ h).length = 46 := by
    rw [List.length_append, hlen]
    rfl
  rw [h46] at hskip
  conv_lhs => rw [hshape, replaceCommits]
  rw [← hshape, if_pos hm, hskip]

theorem commitGroups_ref (h post : List Char) (hlen : h.length = 40) :
    ∃ g0 g3, commitGroups ("commit ".data ++ h ++ post) = [g0, "commit ".data, h.take 10, g3] := by
  refine ⟨("commit ".data ++ h ++ post).take 47,
    (("commit ".data ++ h ++ post).drop 17).take 30, ?_⟩
  unfold commitGroups
  have h7 : ("commit ".data ++ h ++ post).take 7 = "commit ".data := by
    rw [List.append_assoc]
    exact @List.take_left _ "commit ".data (h ++ post)
  have hd : ("commit ".data ++ h ++ post).drop 7 = h ++ post := by
    rw [List.append_assoc]
    exact @List.drop_left _ "commit ".data (h ++ post)
  have h10 : (h ++ post).take 10 = h.take 10 := List.take_append_of_le_length (by omega)
  rw [h7, hd, h10]

theorem replaceCommits_before (tpl pre X : List Char)
    (hpre : ∀ a b, pre = a ++ b → b ≠ [] → ¬ IsCommitRef (b ++ X)) :
    replaceCommits tpl 0 (pre ++ X) = pre ++ replaceCommits tpl 0 X := by
  induction pre with
  | nil => rfl
  | cons x pre ih =>
    have hno : commitMatchAt (x :: pre ++ X) = false := by
      cases hm : commitMatchAt (x :: pre ++ X) with
      | false => rfl
      | true =>
        exact absurd ((commitMatchAt_iff _).1 hm) (hpre [] (x :: pre) rfl (List.cons_ne_nil _ _))
    show replaceCommits tpl 0 (x :: (pre ++ X)) = _
    rw [replaceCommits]
    have hno' : commitMatchAt (x :: (pre ++ X)) = false := hno
    rw [hno']
    simp only [Bool.false_eq_true, if_false, List.cons_append, List.cons.injEq, true_and]
    exact ih (fun a b hab hb => hpre (x :: a) b (by rw [hab]; rfl) hb)

theorem replaceCommits_none (tpl text : List Char)
    (h : ∀ a b, text = a ++ b → ¬ IsCommitRef b) : replaceCommits tpl 0 text = text := by
  have := replaceCommits_before tpl text [] (fun a b hab _ => by
    rw [List.append_nil]
    exact h a b hab)
  rw [List.append_nil] at this
  rw [this]
  simp [replaceCommits]

set_option maxRecDepth 100000 in
/-- C17 (counterexample). With base URL `https://github.com/o/r/commit` the
text `commit ` + `0123456789abcdef0123456789abcdef01234567` is rewritten to
`commit https://github.com/o/r/commit/0123456789`: the URL ends with the
first 10 characters, the 40-character identifier does not occur in it.  In a
base URL `$$` is a template escape and is written as one `$`. -/
theorem commit_link_drops_identifier :
    rewriteCommitLinks "https://github.com/o/r/commit"
        "commit 0123456789abcdef0123456789abcdef01234567\nAuthor: A <a@b.org>\n"
      = "commit https://github.com/o/r/commit/0123456789\nAuthor: A <a@b.org>\n" ∧
    ¬ ("0123456789abcdef0123456789abcdef01234567".data <:+:
        (rewriteCommitLinks "https://github.com/o/r/commit"
          "commit 0123456789abcdef0123456789abcdef01234567\nAuthor: A <a@b.org>\n").data) ∧
    rewriteCommitLinks "https://h/$$/commit" "commit 0123456789abcdef0123456789abcdef01234567"
      = "commit https://h/$/commit/0123456789" := by
  decide

/-- C17 (amended). With a non-empty base URL that contains no `$`, an
occurrence of `commit ` + `h`, `h` being 40 characters of `[0-9a-f]`, that no
earlier match overlaps is rewritten to `commit ` + base URL + `/` + the first
10 characters of `h`, the other 30 being dropped, and the rewrite goes on
after it; a text with no `commit ` followed by 40 such characters is left
unchanged; with an empty base URL every output is unchanged. -/
theorem commit_link_rewrite (baseURL pre h post text : String)
    (hne : baseURL ≠ "") (hdollar : '$' ∉ baseURL.data)
    (hlen : h.length = 40) (hhex : ∀ c ∈ h.data, isLowerHex c = true)
    (hpre : ∀ a b, pre.data = a ++ b → b ≠ [] →
      ¬ IsCommitRef (b ++ ("commit ".data ++ h.data ++ post.data)))
    (htext : ∀ a b, text.data = a ++ b → ¬ IsCommitRef b) :
    rewriteCommitLinks baseURL (pre ++ "commit " ++ h ++ post)
      = pre ++ "commit " ++ baseURL ++ "/" ++ String.mk (h.data.take 10)
        ++ rewriteCommitLinks baseURL post ∧
    rewriteCommitLinks baseURL text = text ∧
    ∀ output : String, rewriteCommitLinks "" output = output := by
  refine ⟨?_, ?_, fun _ => rfl⟩
  · obtain ⟨g0, g3, hg⟩ := commitGroups_ref h.data post.data hlen
    have hin : (pre ++ "commit " ++ h ++ post).data
        = pre.data ++ ("commit ".data ++ h.data ++ post.data) := by
      simp [String.data_append]
    have htpl : ("${1}" ++ baseURL ++ "/${2}").data
        = "${1}".data ++ baseURL.data ++ "/${2}".data := by
      simp [String.data_append]
    have key : replaceCommits ("${1}".data ++ baseURL.data ++ "/${2}".data) 0
        (pre.data ++ ("commit ".data ++ h.data ++ post.data))
        = pre.data ++ (("commit ".data ++ baseURL.data ++ '/' :: h.data.take 10)
          ++ replaceCommits ("${1}".data ++ baseURL.data ++ "/${2}".data) 0 post.data) := by
      rw [replaceCommits_before _ _ _ hpre, replaceCommits_match _ _ _ hlen hhex, hg,
        expandTemplate_commit _ _ _ _ _ hdollar]
    unfold rewriteCommitLinks
    rw [if_pos hne, if_pos hne]
    apply String.ext
    show replaceCommits ("${1}" ++ baseURL ++ "/${2}").data 0 (pre ++ "commit " ++ h ++ post).data
      = _
    rw [hin, htpl, key]
    simp only [String.data_append, List.append_assoc]
    rfl
  · unfold rewriteCommitLinks
    rw [if_pos hne, replaceCommits_none _ _ htext]

theorem no_commit_before (pre X : List Char) (h : 'c' ∉ pre) :
    ∀ a b, pre = a ++ b → b ≠ [] → ¬ IsCommitRef (b ++ X) := by
  rintro a b hab hb ⟨hh, rest, heq, _, _⟩
  cases b with
  | nil => exact hb rfl
  | cons x b =>
    have hx : x = 'c' := by
      have := congrArg List.head? heq
      simpa using this
    apply h
    rw [hab, hx]
    simp

theorem no_commit_of_none (text : List Char) (h : 'c' ∉ text) :
    ∀ a b, text = a ++ b → ¬ IsCommitRef b := by
  rintro a b hab ⟨hh, rest, heq, _, _⟩
  apply h
  rw [hab, heq]
  simp

theorem commit_link_rewrite_witness :
    rewriteCommitLinks "https://github.com/o/r/commit"
        "\x1b[33mcommit 0123456789abcdef0123456789abcdef01234567\x1b[m\n"
      = "\x1b[33mcommit https://github.com/o/r/commit/0123456789\x1b[m\n" ∧
    rewriteCommitLinks "https://github.com/o/r/commit" "Author: A <a@b.org>\n"
      = "Author: A <a@b.org>\n" :=
  have h := commit_link_rewrite "https://github.com/o/r/commit" "\x1b[33m"
    "0123456789abcdef0123456789abcdef01234567" "\x1b[m\n" "Author: A <a@b.org>\n"
    (by decide) (by decide) (by decide) (by decide)
    (no_commit_before _ _ (by decide)) (no_commit_of_none _ (by decide))
  ⟨h.1, h.2.1⟩


/-! ## The author of an email (claim C18) -/

theorem stringsTrim_angle (X : List Char) (hX : NoOuterAngle X) :
    stringsTrim (String.mk ('<' :: (X ++ ['>']))) "<>" = String.mk X := by
  unfold stringsTrim
  congr 1
  have hp : ∀ c : Char, ("<>" : String).data.contains c = true ↔ (c = '<' ∨ c = '>') := by
    intro c
    show ['<', '>'].contains c = true ↔ _
    simp
  cases X with
  | nil => decide
  | cons x X' =>
    have hx : ("<>" : String).data.contains x = false := by
      have := hX.1 x rfl
      cases h : ("<>" : String).data.contains x with
      | false => rfl
      | true => exact absurd ((hp x).1 h) (by tauto)
    have h1 : ('<' :: (x :: X' ++ ['>'])) = ['<'] ++ x :: (X' ++ ['>']) := rfl
    rw [h1, dropWhile_stop _ ['<'] _ x (by intro c hc; simp at hc; subst hc; decide) hx]
    rcases List.eq_nil_or_concat (x :: X') with h | ⟨init, y, h⟩
    · exact absurd h (List.cons_ne_nil _ _)
    · rw [List.concat_eq_append] at h
      have hy : ("<>" : String).data.contains y = false := by
        have := hX.2 y (by rw [h]; exact List.getLast?_concat _)
        cases h' : ("<>" : String).data.contains y with
        | false => rfl
        | true => exact absurd ((hp y).1 h') (by tauto)
      have h2 : x :: (X' ++ ['>']) = init ++ [y] ++ ['>'] := by
        rw [← h]
        rfl
      rw [h2]
      have h3 : (init ++ [y] ++ ['>']).reverse = ['>'] ++ y :: init.reverse := by simp
      rw [h3, dropWhile_stop _ ['>'] _ y (by intro c hc; simp at hc; subst hc; decide) hy]
      simpa using h.symm

theorem noreplyMatch_shape (a b c : List Char) (ha : a ≠ []) (ha' : '+' ∉ a)
    (hb : b ≠ []) (hb' : '@' ∉ b) (hc : '\n' ∉ c) :
    noreplyMatch (a ++ '+' :: (b ++ '@' :: c)) = some b := by
  have hpa : ∀ x ∈ a, (fun c => decide (c ≠ '+')) x = true := by
    intro x hx
    have : x ≠ '+' := fun h => ha' (h ▸ hx)
    simpa using this
  have hpb : ∀ x ∈ b, (fun c => decide (c ≠ '@')) x = true := by
    intro x hx
    have : x ≠ '@' := fun h => hb' (h ▸ hx)
    simpa using this
  have d1 : (a ++ '+' :: (b ++ '@' :: c)).dropWhile (fun c => decide (c ≠ '+'))
      = '+' :: (b ++ '@' :: c) := dropWhile_stop _ a _ '+' hpa (by simp)
  have t1 : (a ++ '+' :: (b ++ '@' :: c)).takeWhile (fun c => decide (c ≠ '+')) = a :=
    takeWhile_stop _ a _ '+' hpa (by simp)
  have d2 : (b ++ '@' :: c).dropWhile (fun c => decide (c ≠ '@')) = '@' :: c :=
    dropWhile_stop _ b _ '@' hpb (by simp)
  have t2 : (b ++ '@' :: c).takeWhile (fun c => decide (c ≠ '@')) = b :=
    takeWhile_stop _ b _ '@' hpb (by simp)
  unfold noreplyMatch
  simp only [d1, t1, d2, t2, ha, hb, hc, if_false]

theorem noreplyMatch_no_plus (l : List Char) (h : '+' ∉ l) : noreplyMatch l = none := by
  have : l.dropWhile (fun c => decide (c ≠ '+')) = [] := by
    rw [List.dropWhile_eq_nil_iff]
    intro x hx
    have : x ≠ '+' := fun hx' => h (hx' ▸ hx)
    simpa using this
  unfold noreplyMatch
  simp only [this]

/-- C18 (counterexample). For the argument `<john@example.com>` the author is
the whole address `john@example.com`, not the local part `john`; an address
with a `+` before an `@` gives the text between them. -/
theorem browser_author_whole_address :
    browserAuthor "<john@example.com>" = "john@example.com" ∧
    browserAuthor "<john@example.com>" ≠ "john" ∧
    browserAuthor "<john+work@example.com>" = "work" := by
  decide

/-- C18 (amended). The author is computed from the argument without its
surrounding angle brackets: for an address `ident+handle@domain` (`ident`
not empty and without `+`, `handle` not empty and without `@`), in particular
for the masked shape `<digits>+<handle>@users.noreply.github.com`, the author
is `handle`; for an address without `+` the author is the whole address. -/
theorem browser_author (ident handle domain addr : String)
    (hi : ident.data ≠ []) (hi' : '+' ∉ ident.data)
    (hia : ∀ c, ident.data.head? = some c → c ≠ '<' ∧ c ≠ '>')
    (hh : handle.data ≠ []) (hh' : '@' ∉ handle.data)
    (hd : '\n' ∉ domain.data)
    (hda : ∀ c, domain.data.getLast? = some c → c ≠ '<' ∧ c ≠ '>')
    (haddr : '+' ∉ addr.data) (haddr' : NoOuterAngle addr.data) :
    browserAuthor ("<" ++ ident ++ "+" ++ handle ++ "@" ++ domain ++ ">") = handle ∧
    browserAuthor ("<" ++ addr ++ ">") = addr := by
  constructor
  · have hX : NoOuterAngle (ident.data ++ '+' :: (handle.data ++ '@' :: domain.data)) := by
      constructor
      · intro c hc
        rw [List.head?_append_of_ne_nil _ hi] at hc
        exact hia c hc
      · intro c hc
        have h1 : ident.data ++ '+' :: (handle.data ++ '@' :: domain.data)
            = (ident.data ++ '+' :: handle.data ++ ['@']) ++ domain.data := by simp
        rw [h1] at hc
        by_cases hdn : domain.data = []
        · rw [hdn, List.append_nil, List.getLast?_concat] at hc
          rw [← Option.some.inj hc]
          decide
        · rw [List.getLast?_append_of_ne_nil _ hdn] at hc
          exact hda c hc
    have hin : "<" ++ ident ++ "+" ++ handle ++ "@" ++ domain ++ ">"
        = String.mk ('<' :: ((ident.data ++ '+' :: (handle.data ++ '@' :: domain.data)) ++ ['>'])) := by
      apply String.ext
      simp [String.data_append]
    unfold browserAuthor
    simp only [hin, stringsTrim_angle _ hX, noreplyMatch_shape _ _ _ hi hi' hh hh' hd]
  · have hin : "<" ++ addr ++ ">" = String.mk ('<' :: (addr.data ++ ['>'])) := by
      apply String.ext
      simp [String.data_append]
    unfold browserAuthor
    simp only [hin, stringsTrim_angle _ haddr', noreplyMatch_no_plus _ haddr]

theorem browser_author_witness :
    browserAuthor "<12345+octocat@users.noreply.github.com>" = "octocat" ∧
    browserAuthor "<john@example.com>" = "john@example.com" :=
  browser_author "12345" "octocat" "users.noreply.github.com" "john@example.com"
    (by decide) (by decide)
    (fun c hc => by
      have : c = '1' := (Option.some.inj hc).symm
      subst this
      decide)
    (by decide) (by decide) (by decide)
    (fun c hc => by
      have : c = 'm' := (Option.some.inj hc).symm
      subst this
      decide)
    (by decide)
    ⟨fun c hc => by
        have : c = 'j' := (Option.some.inj hc).symm
        subst this
        decide,
      fun c hc => by
        have : c = 'm' := (Option.some.inj hc).symm
        subst this
        decide⟩


end GhShortlog
